import Mathlib

/-!
Verification development for the passphrase-sheets generator
(`src/generator.cxx`).

The C++ core is shallowly embedded below:

* `Block`, `Column`, `RowGroup` mirror the corresponding structs.
* The C++ global block registry (`g_blocks`, accessed through
  `get_block`/`get_block_mut`) is embedded as an explicit `List Block`
  argument threaded through every layout operation; `get_block_mut`
  assignments become `List.set`.
* In-place mutation of `RowGroup` (`*this = std::move(temp)`) becomes
  returning the new value; a C++ `bool` result with an in/out `this`
  becomes `Option RowGroup` (`none` = `false` with the receiver
  unchanged, which is exactly the C++ behaviour since the C++ code
  only mutates a local temporary before committing).
* Fallible code (`throw std::runtime_error`) becomes `Except String`.
* The JSON access layer is reduced to an `Entry` list: one `Entry` per
  `data_headers` item, in `data_headers` iteration order, carrying the
  already-looked-up `data` string and the optional raw `margins`
  values (the missing-key checks of `write_sheet_html` are outside the
  embedded core and are not the subject of any claim).
* `int` is embedded as `Int` (no claim exercises 32-bit overflow).
* Rendered HTML cells are embedded as `Cell` records holding the
  emitted `colspan`, `rowspan` and escaped text.
-/

namespace PassphraseSheets

/-- `constexpr int grid10_height = 8;` -/
def grid10_height : Int := 8

/-- `struct Block` from the source, field for field. -/
structure Block where
  key : String
  header : String
  data : String
  keyid_hex16 : String
  width : Int := 0
  content_width : Int := 0
  height : Int := 0
  margin_left : Int := 0
  margin_right : Int := 0
  keyid_compact : Bool := false
deriving DecidableEq, Repr, Inhabited

/-- `get_block(index)`: look a block up in the registry.  The C++ `at`
throws when out of bounds; all verified call sites are in bounds, so the
embedding totalises with a default. -/
def get_block (blocks : List Block) (i : Nat) : Block :=
  blocks.getD i default

/-- A raw JSON scalar as consumed by `parse_int` (integer, string, or
anything else). -/
inductive JVal where
  | jint (n : Int)
  | jstr (s : String)
  | other
deriving DecidableEq, Repr

/-- Digit-run consumer used by the `std::stoi` model: accumulate base-10
digits, returning the value and the number of digits consumed. -/
def takeDigitsVal : List Char → Int → Nat → Int × Nat
  | [], acc, cnt => (acc, cnt)
  | c :: cs, acc, cnt =>
    if c.isDigit then takeDigitsVal cs (acc * 10 + ((c.toNat : Int) - 48)) (cnt + 1)
    else (acc, cnt)

/-- Model of `std::stoi(s, &parsed, 10)`: skip leading whitespace, an
optional sign, then base-10 digits; `none` models the
`std::invalid_argument` throw when no digits are found.  Returns the
value and the number of characters consumed. -/
def stoi10 (s : String) : Option (Int × Nat) :=
  let cs := s.toList
  let wsCount := (cs.takeWhile Char.isWhitespace).length
  let rest := cs.drop wsCount
  let signed : Int × Nat × List Char :=
    match rest with
    | [] => (1, 0, rest)
    | c :: cs2 =>
      if c = '-' then (-1, 1, cs2)
      else if c = '+' then (1, 1, cs2)
      else (1, 0, rest)
  let dv := takeDigitsVal signed.2.2 0 0
  if dv.2 = 0 then none
  else some (signed.1 * dv.1, wsCount + signed.2.1 + dv.2)

/-- `parse_int(value, what)` from the source: a JSON integer is accepted
as-is (any sign); a string goes through `std::stoi` and must be fully
consumed; anything else is an error. -/
def parse_int (value : JVal) (what : String) : Except String Int :=
  match value with
  | .jint n => .ok n
  | .jstr s =>
    match stoi10 s with
    | none => .error "stoi"
    | some (v, parsed) =>
      if parsed ≠ s.length then
        .error (what ++ " must be an integer, got \x27" ++ s ++ "\x27")
      else .ok v
  | .other => .error (what ++ " must be an integer or integer string")

/-- `data_width` from the source. -/
def data_width (data : String) : Int :=
  if data = "grid36" then 37
  else if data = "grid10" then 10
  else (data.length : Int)

/-- `data_height` from the source. -/
def data_height (data : String) : Int :=
  if data = "grid36" then 30
  else if data = "grid10" then grid10_height + 1
  else 2

/-- `std::isxdigit` on ASCII. -/
def isxdigit (c : Char) : Bool :=
  c.isDigit || (('a' ≤ c) && (c ≤ 'f')) || (('A' ≤ c) && (c ≤ 'F'))

/-- The fixed message thrown by `parse_keyid_hex16`. -/
def keyid_err : String :=
  "keyid must be optional \x270x\x27 followed by 16 hex characters"

/-- Strip a leading `0x`/`0X`, mirroring the `rfind`/`substr` pair
(written over the character list so that it reduces definitionally). -/
def strip0x (s : String) : String :=
  match s.toList with
  | '0' :: 'x' :: rest => String.mk rest
  | '0' :: 'X' :: rest => String.mk rest
  | _ => s

/-- Does `needle` occur at the start of `hay`? -/
def starts_with_chars : List Char → List Char → Bool
  | _, [] => true
  | [], _ :: _ => false
  | h :: hs, n :: ns => h = n && starts_with_chars hs ns

/-- Does `needle` occur anywhere inside `hay`? -/
def has_substring (needle : List Char) : List Char → Bool
  | [] => starts_with_chars [] needle
  | h :: t => starts_with_chars (h :: t) needle || has_substring needle t

/-- `parse_keyid_hex16` from the source: after stripping an optional
`0x` the payload must be exactly 16 hex digits; both failure branches
throw the same fixed message. -/
def parse_keyid_hex16 (s : String) : Except String String :=
  let hex := strip0x s
  if hex.length ≠ 16 then .error keyid_err
  else if hex.toList.all isxdigit then .ok hex
  else .error keyid_err

/-- One `data_headers` item, in iteration order, with the matching
`data` string and raw `margins` entry (`none` models an absent
`left`/`right` key, which defaults to 0). -/
structure Entry where
  key : String
  header : String
  data : String
  margin_left : Option JVal
  margin_right : Option JVal
deriving DecidableEq, Repr, Inhabited

/-- The `margin_obj.contains(...) ? parse_int(...) : 0` idiom. -/
def parse_margin (m : Option JVal) (path : String) : Except String Int :=
  match m with
  | none => .ok 0
  | some v => parse_int v path

/-- Block construction for one entry: the body of the per-key loop of
`write_sheet_html` up to `blocks.push_back(block)` (margins, derived
geometry, key-identifier parsing, and the width-versus-table-width
check), in source order. -/
def mk_block (table_width : Int) (sheet_label : String) (e : Entry) :
    Except String Block := do
  let ml ← parse_margin e.margin_left (sheet_label ++ ".margins." ++ e.key ++ ".left")
  let mr ← parse_margin e.margin_right (sheet_label ++ ".margins." ++ e.key ++ ".right")
  let content_width : Int :=
    if e.key = "keyid" then 18 else if e.key = "keyid3" then 10 else data_width e.data
  let height : Int :=
    if e.key = "keyid" then 2 else if e.key = "keyid3" then 3 else data_height e.data
  let keyid_hex16 ←
    if e.key = "keyid" ∨ e.key = "keyid3" then parse_keyid_hex16 e.data else pure ""
  let width := content_width + ml + mr
  if width > table_width then
    .error (sheet_label ++ ": block \x27" ++ e.key ++ "\x27 has width " ++ toString width ++
      " > table width " ++ toString table_width)
  else
    .ok { key := e.key, header := e.header, data := e.data, keyid_hex16 := keyid_hex16,
          width := width, content_width := content_width, height := height,
          margin_left := ml, margin_right := mr,
          keyid_compact := e.key == "keyid3" }

/-- `RowGroup::Column`. -/
structure Column where
  width : Int := 0
  height : Int := 0
  blocks : List Nat := []
deriving DecidableEq, Repr, Inhabited

/-- `class RowGroup` state: table width, height, columns, and the
`m_keyid` tracking field (−1 when unset). -/
structure RowGroup where
  table_width : Int := 0
  height : Int := 0
  columns : List Column := []
  keyid : Int := -1
deriving DecidableEq, Repr, Inhabited

namespace RowGroup

/-- `RowGroup::width()`: sum of the column widths. -/
def width (rg : RowGroup) : Int :=
  (rg.columns.map Column.width).sum

/-- `RowGroup::blocks_in_order()`: column by column, top to bottom. -/
def blocks_in_order (rg : RowGroup) : List Nat :=
  (rg.columns.map Column.blocks).flatten

/-- `RowGroup::last_block_index()` (call sites guarantee nonemptiness). -/
def last_block_index (rg : RowGroup) : Nat :=
  (rg.columns.getLastD default).blocks.getLastD 0

/-- `RowGroup::last_column_has_single_block()`. -/
def last_column_has_single_block (rg : RowGroup) : Bool :=
  match rg.columns.getLast? with
  | none => false
  | some c => c.blocks.length == 1

/-- `RowGroup::last_column()` (call sites guarantee nonemptiness). -/
def last_column (rg : RowGroup) : Column :=
  rg.columns.getLastD default

/-- `RowGroup::add_new_column(block_index)`. -/
def add_new_column (rg : RowGroup) (blocks : List Block) (i : Nat) : RowGroup :=
  let b := get_block blocks i
  { rg with columns := rg.columns ++ [{ width := b.width, height := b.height, blocks := [i] }] }

/-- `RowGroup::add_to_last_column_if_fits(block_index)`; `none` models
returning `false` with the group untouched. -/
def add_to_last_column_if_fits (rg : RowGroup) (blocks : List Block) (i : Nat) :
    Option RowGroup :=
  match rg.columns.getLast? with
  | none => none
  | some col =>
    let b := get_block blocks i
    if col.height + b.height > rg.height then none
    else
      let new_col_width := max col.width b.width
      let new_total_width := rg.width - col.width + new_col_width
      if new_total_width > rg.table_width then none
      else
        some { rg with columns := rg.columns.dropLast ++
          [{ width := new_col_width, height := col.height + b.height,
             blocks := col.blocks ++ [i] }] }

/-- `RowGroup::add_new_column_if_fits(block_index)`. -/
def add_new_column_if_fits (rg : RowGroup) (blocks : List Block) (i : Nat) :
    Option RowGroup :=
  let b := get_block blocks i
  if rg.width + b.width > rg.table_width then none
  else some (rg.add_new_column blocks i)

/-- `RowGroup::add_fixed_height(block_index)`. -/
def add_fixed_height (rg : RowGroup) (blocks : List Block) (i : Nat) : Option RowGroup :=
  if rg.columns.isEmpty then some (rg.add_new_column blocks i)
  else
    match rg.add_to_last_column_if_fits blocks i with
    | some rg2 => some rg2
    | none => rg.add_new_column_if_fits blocks i

/-- `RowGroup::new_block_added(block_index)`: record the most recent
key-identifier block. -/
def new_block_added (rg : RowGroup) (blocks : List Block) (i : Nat) : RowGroup :=
  if (get_block blocks i).keyid_hex16 ≠ "" then { rg with keyid := (i : Int) } else rg

/-- `RowGroup::add(block_index)`: first placement fixes the height; a
taller block triggers the height-growth replay into a fresh group;
otherwise append to the last column or open a new column. -/
def add (rg : RowGroup) (blocks : List Block) (i : Nat) : Option RowGroup :=
  let b := get_block blocks i
  if rg.columns.isEmpty then
    some ((({ rg with height := b.height } : RowGroup).add_new_column blocks i).new_block_added blocks i)
  else if b.height > rg.height then
    let temp0 : RowGroup :=
      { table_width := rg.table_width, height := b.height, columns := [], keyid := -1 }
    match (rg.blocks_in_order ++ [i]).foldlM (fun g j => g.add_fixed_height blocks j) temp0 with
    | none => none
    | some temp => some (temp.new_block_added blocks i)
  else
    match rg.add_to_last_column_if_fits blocks i with
    | some rg2 => some (rg2.new_block_added blocks i)
    | none =>
      match rg.add_new_column_if_fits blocks i with
      | some rg2 => some (rg2.new_block_added blocks i)
      | none => none

/-- The replay loop of the height-growth branch of `RowGroup::add`:
replay the group's blocks in order, then the new block, into a fresh
group at the new block's height, using the fixed-height rule. -/
def growth_replay (rg : RowGroup) (blocks : List Block) (i : Nat) : Option RowGroup :=
  (rg.blocks_in_order ++ [i]).foldlM (fun g j => g.add_fixed_height blocks j)
    ({ table_width := rg.table_width, height := (get_block blocks i).height,
       columns := [], keyid := -1 } : RowGroup)

end RowGroup

/-- The in-progress layout of one sheet: the block registry, the
finalized groups, and the current group. -/
structure LayoutState where
  blocks : List Block
  groups : List RowGroup
  current : RowGroup
deriving DecidableEq, Repr

/-- The `try_compact_last_keyid_to_fit` lambda.  The result carries the
C++ return value together with the observable state it leaves behind:
the block registry and the current group.  On the deep failure paths
the registry is written back with the saved copy (`keyid_mut = saved`),
exactly as in the source. -/
def try_compact_last_keyid_to_fit (table_width : Int) (st : LayoutState)
    (new_block_index : Nat) : Bool × List Block × RowGroup :=
  if st.current.columns.isEmpty then (false, st.blocks, st.current)
  else if ¬ st.current.last_column_has_single_block then (false, st.blocks, st.current)
  else
    let keyid_index := st.current.last_block_index
    let keyid := get_block st.blocks keyid_index
    if keyid.key ≠ "keyid" ∨ keyid.keyid_compact then (false, st.blocks, st.current)
    else if st.current.last_column.width ≠ keyid.width then (false, st.blocks, st.current)
    else
      let saved := keyid
      let shrink : Int := 8
      if keyid.content_width < shrink + 2 then (false, st.blocks, st.current)
      else
        let mutated : Block :=
          { keyid with keyid_compact := true,
                       content_width := keyid.content_width - shrink,
                       width := keyid.width - shrink,
                       height := 3 }
        let blocks2 := st.blocks.set keyid_index mutated
        let rebuilt0 : RowGroup :=
          { table_width := table_width, height := 0, columns := [], keyid := -1 }
        match st.current.blocks_in_order.foldlM (fun g j => g.add blocks2 j) rebuilt0 with
        | none => (false, st.blocks.set keyid_index saved, st.current)
        | some rebuilt =>
          match rebuilt.add blocks2 new_block_index with
          | none => (false, st.blocks.set keyid_index saved, st.current)
          | some rebuilt2 => (true, blocks2, rebuilt2)

/-- One iteration of the packing loop of `write_sheet_html`, after the
block has been constructed: push it into the registry, try the direct
`add`, then the compaction fallback, then finalize the current group
and start a fresh one. -/
def process_block (table_width : Int) (st : LayoutState) (b : Block) :
    Except String LayoutState :=
  let blocks2 := st.blocks ++ [b]
  let block_index := st.blocks.length
  match st.current.add blocks2 block_index with
  | some g => .ok { blocks := blocks2, groups := st.groups, current := g }
  | none =>
    match try_compact_last_keyid_to_fit table_width
        { blocks := blocks2, groups := st.groups, current := st.current } block_index with
    | (true, blocks3, cur3) => .ok { blocks := blocks3, groups := st.groups, current := cur3 }
    | (false, blocks3, cur3) =>
      let groups2 := if cur3.columns.isEmpty then st.groups else st.groups ++ [cur3]
      let fresh : RowGroup :=
        { table_width := table_width, height := 0, columns := [], keyid := -1 }
      match fresh.add blocks3 block_index with
      | some g => .ok { blocks := blocks3, groups := groups2, current := g }
      | none => .error "internal error: failed to start new RowGroup"

/-- The empty layout state for one sheet. -/
def init_state (table_width : Int) : LayoutState :=
  { blocks := [],
    groups := [],
    current := { table_width := table_width, height := 0, columns := [], keyid := -1 } }

/-- The packing loop of `write_sheet_html` over all entries. -/
def layout_entries (table_width : Int) (sheet_label : String) (entries : List Entry) :
    Except String LayoutState :=
  entries.foldlM
    (fun st e => do
      let b ← mk_block table_width sheet_label e
      process_block table_width st b)
    (init_state table_width)

/-- Full layout of one sheet: pack all entries, then append the final
non-empty current group.  Returns the final block registry and the
finalized `RowGroup` list. -/
def layout_sheet (table_width : Int) (entries : List Entry) :
    Except String (List Block × List RowGroup) := do
  let st ← layout_entries table_width "sheet" entries
  .ok (st.blocks, st.groups ++ (if st.current.columns.isEmpty then [] else [st.current]))

/-- `html_escape` on one character. -/
def html_escape_char (ch : Char) : String :=
  if ch = '&' then "&amp;"
  else if ch = '<' then "&lt;"
  else if ch = '>' then "&gt;"
  else if ch = '"' then "&quot;"
  else String.singleton ch

/-- `html_escape` from the source. -/
def html_escape (s : String) : String :=
  String.join (s.toList.map html_escape_char)

/-- One emitted `<td>`: its `colspan`, `rowspan` and (escaped) text. -/
structure Cell where
  colspan : Int
  rowspan : Int := 1
  text : String := ""
deriving DecidableEq, Repr

/-- `write_empty_span(colspan)`: nothing for a nonpositive span, else a
single blank cell. -/
def write_empty_span (colspan : Int) : List Cell :=
  if colspan ≤ 0 then [] else [{ colspan := colspan, rowspan := 1, text := "<br>" }]

/-- `write_block_header_row`: margin cells, header cell spanning the
content width, margin cells. -/
def write_block_header_row (b : Block) : List Cell :=
  write_empty_span b.margin_left ++
    [{ colspan := b.content_width, rowspan := 1, text := html_escape b.header }] ++
    write_empty_span b.margin_right

/-- The escaped `i`-th character of a block's key-identifier payload
(`keyid_hex16.at(i)`; call sites are in bounds for 16-char payloads). -/
def hex_char (b : Block) (i : Nat) : String :=
  html_escape (String.singleton (b.keyid_hex16.toList.getD i ' '))

/-- The fixed grid36 symbol row from the source. -/
def grid36_alphabet : String := "-ABCDEFGHIJKLMNOPQRSTUVWXYZ0123456789"

/-- A single-character data cell. -/
def char_cell (ch : Char) : Cell :=
  { colspan := 1, rowspan := 1, text := html_escape (String.singleton ch) }

/-- `write_block_data_row(block, data_row_index)`: the emitted cells of
one data row, branch for branch; the `throw std::runtime_error`
branches become `Except.error`. -/
def write_block_data_row (b : Block) (data_row_index : Int) : Except String (List Cell) := do
  let inner : List Cell ←
    if b.key = "keyid" ∨ b.key = "keyid3" then
      if b.keyid_compact then
        if data_row_index = 0 then
          .ok ({ colspan := 2, rowspan := 2, text := html_escape "0 x" } ::
            (List.range 8).map (fun i => { colspan := 1, rowspan := 1, text := hex_char b i }))
        else if data_row_index = 1 then
          .ok ((List.range 8).map
            (fun i => { colspan := 1, rowspan := 1, text := hex_char b (8 + i) }))
        else .error "internal error: unexpected keyid data_row_index"
      else
        .ok ({ colspan := 2, rowspan := 1, text := html_escape "0 x" } ::
          (List.range 16).map (fun i => { colspan := 1, rowspan := 1, text := hex_char b i }))
    else if b.data = "grid10" then
      .ok ("0123456789".toList.map char_cell)
    else if b.data = "grid36" then
      if data_row_index % 5 < 4 then
        .ok (grid36_alphabet.toList.map char_cell)
      else
        .ok [{ colspan := 1, rowspan := 1, text := "-" },
             { colspan := 36, rowspan := 1, text := "" }]
    else
      if data_row_index ≠ 0 then
        .error ("internal error: unexpected data_row_index for non-grid block \x27" ++
          b.key ++ "\x27")
      else
        .ok (b.data.toList.map char_cell)
  .ok (write_empty_span b.margin_left ++ inner ++ write_empty_span b.margin_right)

/-- `find_block_at_row`: walk a column's stack; `some (block_row, idx)`
is the block covering the offset together with the offset inside it.
The running `cursor` of the source is replaced by decrementing the
offset, which is the same arithmetic. -/
def find_block_at_row (blocks : List Block) : List Nat → Int → Option (Int × Nat)
  | [], _ => none
  | i :: rest, r =>
    let b := get_block blocks i
    if r < b.height then some (r, i)
    else find_block_at_row blocks rest (r - b.height)

/-- The cells one column contributes to the table row at offset `r`
inside its group: the covering block's header or data row plus padding
up to the column width, or a blank column-wide cell. -/
def render_col_at (blocks : List Block) (col : Column) (r : Int) :
    Except String (List Cell) :=
  match find_block_at_row blocks col.blocks r with
  | some (block_row, i) =>
    let b := get_block blocks i
    (if block_row = 0 then .ok (write_block_header_row b)
     else write_block_data_row b (block_row - 1)).map
      (fun cells => cells ++ write_empty_span (col.width - b.width))
  | none => .ok (write_empty_span col.width)

/-- One full `<tr>` of a group at row offset `r`: every column's cells
followed by the final gap-closing blank cell up to the table width. -/
def render_row (blocks : List Block) (table_width : Int) (g : RowGroup) (r : Int) :
    Except String (List Cell) := do
  let colcells ← g.columns.mapM (fun col => render_col_at blocks col r)
  .ok (colcells.flatten ++ write_empty_span (table_width - (g.columns.map Column.width).sum))

/-- Sum of the colspans emitted in a row. -/
def spanSum (cells : List Cell) : Int :=
  (cells.map Cell.colspan).sum

/-- Sum of the colspans of the rowspan-2 cells of a row: the span units
this row also occupies in the next table row. -/
def overhang (cells : List Cell) : Int :=
  ((cells.filter (fun c => c.rowspan == 2)).map Cell.colspan).sum

/-! ## Concrete inputs used by witnesses and counterexamples -/

/-- A non-compact key-identifier block (as built for table width ≥ 18). -/
def keyid_block_ex : Block :=
  { key := "keyid", header := "Key", data := "0x0123456789abcdef",
    keyid_hex16 := "0123456789abcdef", width := 18, content_width := 18, height := 2 }

/-- A plain 14-wide block. -/
def wide_block_ex : Block :=
  { key := "c", header := "H3", data := "ABCDEFGHIJKLMN", keyid_hex16 := "",
    width := 14, content_width := 14, height := 2 }

/-- A plain 12-wide block. -/
def narrow_block_ex : Block :=
  { key := "d", header := "H4", data := "ABCDEFGHIJKL", keyid_hex16 := "",
    width := 12, content_width := 12, height := 2 }

/-- Scenario C of the spec: a lone key-identifier block in the current
group of a width-30 table, with a 14-wide follower in the registry. -/
def compaction_state_ex : LayoutState :=
  { blocks := [keyid_block_ex, wide_block_ex], groups := [],
    current := { table_width := 30, height := 2,
                 columns := [{ width := 18, height := 2, blocks := [0] }], keyid := 0 } }

/-- The observable outcome of the Scenario C compaction attempt. -/
def compaction_result_ex : Bool × List Block × RowGroup :=
  try_compact_last_keyid_to_fit 30 compaction_state_ex 1

/-- Same shape at table width 20 with a 12-wide follower: compaction is
attempted, mutates the block, rebuild fails (10 + 12 > 20), rollback. -/
def rollback_state_ex : LayoutState :=
  { blocks := [keyid_block_ex, narrow_block_ex], groups := [],
    current := { table_width := 20, height := 2,
                 columns := [{ width := 18, height := 2, blocks := [0] }], keyid := 0 } }

/-- The observable outcome of the failing compaction attempt. -/
def rollback_result_ex : Bool × List Block × RowGroup :=
  try_compact_last_keyid_to_fit 20 rollback_state_ex 1

/-- A 3-wide, height-2 block for the height-growth example. -/
def short_block_ex : Block :=
  { key := "x", header := "hx", data := "abc", keyid_hex16 := "",
    width := 3, content_width := 3, height := 2 }

/-- A 10-wide, height-9 grid10 block for the height-growth example. -/
def tall_block_ex : Block :=
  { key := "y", header := "hy", data := "grid10", keyid_hex16 := "",
    width := 10, content_width := 10, height := 9 }

/-- A group holding only the short block, at table width 15. -/
def growth_group_ex : RowGroup :=
  { table_width := 15, height := 2,
    columns := [{ width := 3, height := 2, blocks := [0] }], keyid := -1 }

/-- Registry for the height-growth example. -/
def growth_blocks_ex : List Block := [short_block_ex, tall_block_ex]

/-- An entry with a negative left margin (C7). -/
def c7_entry : Entry := ⟨"note", "Header", "hello", some (.jint (-3)), none⟩

/-- The block the generator builds from `c7_entry` at table width 10:
accepted, with total width 5 + (−3) + 0 = 2. -/
def c7_block : Block :=
  { key := "note", header := "Header", data := "hello", keyid_hex16 := "",
    width := 2, content_width := 5, height := 2, margin_left := -3, margin_right := 0 }

/-- The single row-group laid out for `c7_entry` at table width 10. -/
def c7_group : RowGroup :=
  { table_width := 10, height := 2,
    columns := [{ width := 2, height := 2, blocks := [0] }], keyid := -1 }

/-- A key-identifier entry whose data is not hex (Scenario E). -/
def c8_entry : Entry := ⟨"keyid3", "Key", "0xZZZZZZZZZZZZZZZZ", none, none⟩

/-- A margin-free grid36 block as the generator builds it. -/
def grid36_block_ex : Block :=
  { key := "g", header := "h", data := "grid36", keyid_hex16 := "",
    width := 37, content_width := 37, height := 30 }

/-- The cells of a non-separator grid36 data row: one cell per symbol
of the fixed alphabet. -/
def grid36_cells_ex : List Cell := grid36_alphabet.toList.map char_cell

/-- A two-entry sheet: a margined greeting and a short note. -/
def c6_entries : List Entry :=
  [⟨"greeting", "Greeting", "HELLO", some (.jint 2), some (.jint 2)⟩,
   ⟨"note", "N", "HI", none, none⟩]

/-- The layout of `c6_entries` at table width 40. -/
def c6_result : List Block × List RowGroup :=
  (layout_sheet 40 c6_entries).toOption.getD ([], [])

/-! ## Invariants maintained by the layout engine -/

/-- Geometric well-formedness of one column of height budget `H`: it
holds at least one block, all block references are in bounds, its
height is the sum of its blocks' heights, its width is the maximum of
its blocks' widths (attained and an upper bound), and it fits the
budget. -/
structure ColWF (blocks : List Block) (H : Int) (c : Column) : Prop where
  nonempty : c.blocks ≠ []
  inbounds : ∀ i ∈ c.blocks, i < blocks.length
  height_eq : c.height = (c.blocks.map (fun i => (get_block blocks i).height)).sum
  width_mem : ∃ i ∈ c.blocks, c.width = (get_block blocks i).width
  width_ub : ∀ i ∈ c.blocks, (get_block blocks i).width ≤ c.width
  height_le : c.height ≤ H

/-- Geometric well-formedness of a `RowGroup` against table width
`tw`: its stored table width is `tw`, every column is well formed
within the group's height, and the column widths sum to at most the
table width. -/
structure GroupWF (blocks : List Block) (tw : Int) (g : RowGroup) : Prop where
  tweq : g.table_width = tw
  cols : ∀ c ∈ g.columns, ColWF blocks g.height c
  sumw : g.width ≤ tw

/-- A nonempty group always has a column of full height (the column
that received the block which fixed the group's height). -/
def FullCol (g : RowGroup) : Prop :=
  g.columns ≠ [] → ∃ c ∈ g.columns, c.height = g.height

/-- Shape invariant of every constructed block, as `write_sheet_html`
builds them (and as the compaction fallback rewrites them): margins are
nonnegative, total width is content width plus margins, and the
content width / height / key-identifier payload agree with the block's
class. -/
structure BlockOK (b : Block) : Prop where
  ml_nonneg : 0 ≤ b.margin_left
  mr_nonneg : 0 ≤ b.margin_right
  width_eq : b.width = b.content_width + b.margin_left + b.margin_right
  h_pos : 1 ≤ b.height
  cw_nonneg : 0 ≤ b.content_width
  keyid_shape : b.key = "keyid" ∨ b.key = "keyid3" →
    b.keyid_hex16.length = 16 ∧
    (b.keyid_compact = true → b.content_width = 10 ∧ b.height = 3) ∧
    (b.keyid_compact = false → b.content_width = 18 ∧ b.height = 2)
  plain_shape : ¬(b.key = "keyid" ∨ b.key = "keyid3") →
    b.content_width = data_width b.data ∧ b.height = data_height b.data

/-- Every block of the registry is well shaped and fits the table. -/
def RegistryOK (tw : Int) (blocks : List Block) : Prop :=
  ∀ b ∈ blocks, BlockOK b ∧ b.width ≤ tw

/-- A margins entry the spec calls valid: absent, or a nonnegative
JSON integer. -/
def ValidMargin (m : Option JVal) : Prop :=
  ∀ v, m = some v → ∃ n, v = JVal.jint n ∧ 0 ≤ n

/-- An input entry the spec calls valid: both margins valid. -/
def ValidEntry (e : Entry) : Prop :=
  ValidMargin e.margin_left ∧ ValidMargin e.margin_right

/-- The full invariant of the packing loop state: well-shaped registry,
well-formed finalized groups and current group, and the group order
partitioning exactly the registry indices. -/
def StateWF (tw : Int) (st : LayoutState) : Prop :=
  RegistryOK tw st.blocks ∧
  (∀ g ∈ st.groups, GroupWF st.blocks tw g ∧ FullCol g ∧ g.columns ≠ []) ∧
  GroupWF st.blocks tw st.current ∧ FullCol st.current ∧
  (st.groups.map RowGroup.blocks_in_order).flatten ++ st.current.blocks_in_order
    = List.range st.blocks.length

/-- A block whose total width is exactly the table width sits alone:
its column is the only column and it is that column's only block. -/
def AloneFW (tw : Int) (blocks : List Block) (g : RowGroup) : Prop :=
  ∀ c ∈ g.columns, ∀ j ∈ c.blocks, (get_block blocks j).width = tw →
    g.columns = [c] ∧ c.blocks = [j]

/-- Every block of the registry has positive total width. -/
def RegistryPos (blocks : List Block) : Prop :=
  ∀ b ∈ blocks, 1 ≤ b.width

/-- The C10 counterexample input: a full-width block followed by a
zero-width block (empty data string, no margins). -/
def c10_entries : List Entry :=
  [⟨"a", "H", "hello", none, none⟩, ⟨"b", "H2", "", none, none⟩]

/-- The blocks built from `c10_entries` at table width 5. -/
def c10_blocks : List Block :=
  [{ key := "a", header := "H", data := "hello", keyid_hex16 := "",
     width := 5, content_width := 5, height := 2 },
   { key := "b", header := "H2", data := "", keyid_hex16 := "",
     width := 0, content_width := 0, height := 2 }]

/-- The single RowGroup laid out for `c10_entries` at table width 5:
the zero-width block joins the full-width block's group. -/
def c10_group : RowGroup :=
  { table_width := 5, height := 2,
    columns := [{ width := 5, height := 2, blocks := [0] },
                { width := 0, height := 2, blocks := [1] }], keyid := -1 }

/-- A single full-width block, for the amended C10 witness. -/
def c10_good_entries : List Entry := [⟨"a", "H", "hello", none, none⟩]

/-- The layout of `c10_good_entries` at table width 5. -/
def c10_good_result : List Block × List RowGroup :=
  (layout_sheet 5 c10_good_entries).toOption.getD ([], [])

/-- The single RowGroup laid out for `c6_entries` at table width 40. -/
def c6_group : RowGroup :=
  { table_width := 40, height := 2,
    columns := [{ width := 9, height := 2, blocks := [0] },
                { width := 2, height := 2, blocks := [1] }], keyid := -1 }

/-- First column of `c6_group`. -/
def c6_col0 : Column := { width := 9, height := 2, blocks := [0] }

/-- Second column of `c6_group`. -/
def c6_col1 : Column := { width := 2, height := 2, blocks := [1] }

/-- The single RowGroup laid out for `c10_good_entries` at width 5. -/
def c10_good_group : RowGroup :=
  { table_width := 5, height := 2,
    columns := [{ width := 5, height := 2, blocks := [0] }], keyid := -1 }

/-- The single column of `c10_good_group`. -/
def c10_good_col : Column := { width := 5, height := 2, blocks := [0] }

/-- The colspan units a column's row at offset `r` leaves to be covered
by a rowspan-2 cell from the previous row: 2 exactly when the covering
block is a compact key-identifier at its third row (block row 2,
second data row). -/
def col_defect (blocks : List Block) (c : Column) (r : Int) : Int :=
  match find_block_at_row blocks c.blocks r with
  | some (br, i) =>
    let b := get_block blocks i
    if (b.key = "keyid" ∨ b.key = "keyid3") ∧ b.keyid_compact = true ∧ br = 2 then 2
    else 0
  | none => 0

/-- The colspan units of rowspan-2 cells a column's row at offset `r`
pushes into the next row: 2 exactly when the covering block is a
compact key-identifier at its second row (block row 1, first data
row). -/
def col_over (blocks : List Block) (c : Column) (r : Int) : Int :=
  match find_block_at_row blocks c.blocks r with
  | some (br, i) =>
    let b := get_block blocks i
    if (b.key = "keyid" ∨ b.key = "keyid3") ∧ b.keyid_compact = true ∧ br = 1 then 2
    else 0
  | none => 0

/-- The span units of the table row at offset `r` of a group that are
covered by rowspan-2 cells of the previous row rather than emitted. -/
def row_defect (blocks : List Block) (g : RowGroup) (r : Int) : Int :=
  (g.columns.map (fun c => col_defect blocks c r)).sum

/-- The span units a group's table row at offset `r` pushes into the
next row through rowspan-2 cells. -/
def row_over (blocks : List Block) (g : RowGroup) (r : Int) : Int :=
  (g.columns.map (fun c => col_over blocks c r)).sum

/-- A one-block `keyid3` sheet (compact key-identifier), table width
12: the C5 counterexample input. -/
def c5_entries : List Entry := [⟨"keyid3", "Key", "0123456789abcdef", none, none⟩]

/-- The layout of `c5_entries` at table width 12. -/
def c5_result : List Block × List RowGroup :=
  (layout_sheet 12 c5_entries).toOption.getD ([], [])

/-- The registry laid out for `c5_entries`: the single compact
key-identifier block. -/
def c5_blocks : List Block :=
  [{ key := "keyid3", header := "Key", data := "0123456789abcdef",
     keyid_hex16 := "0123456789abcdef", width := 10, content_width := 10,
     height := 3, margin_left := 0, margin_right := 0, keyid_compact := true }]

/-- The single RowGroup laid out for `c5_entries`. -/
def c5_group : RowGroup :=
  { table_width := 12, height := 3,
    columns := [{ width := 10, height := 3, blocks := [0] }], keyid := 0 }

/-- The cells of the first data row (table row 1) of the `keyid3`
sheet: the rowspan-2 label cell, the first 8 hex digits, and the
gap-closing blank cell. -/
def c5_cells_r1 : List Cell :=
  { colspan := 2, rowspan := 2, text := "0 x" } ::
    ((List.range 8).map (fun i =>
      { colspan := 1, rowspan := 1,
        text := String.singleton ("0123456789abcdef".toList.getD i ' ') })) ++
    [{ colspan := 2, rowspan := 1, text := "<br>" }]

/-- The cells of the second data row (table row 2): the last 8 hex
digits and the gap-closing blank cell — their colspans sum to 10, not
12; the remaining 2 units are covered by the rowspan-2 cell of
`c5_cells_r1`. -/
def c5_cells_r2 : List Cell :=
  ((List.range 8).map (fun i =>
    { colspan := 1, rowspan := 1,
      text := String.singleton ("0123456789abcdef".toList.getD (8 + i) ' ') })) ++
    [{ colspan := 2, rowspan := 1, text := "<br>" }]

/-! ## Basic registry lemmas -/

theorem get_block_set_self (l : List Block) (k : Nat) (a : Block) (hk : k < l.length) :
    get_block (l.set k a) k = a := by
  induction l generalizing k with
  | nil => simp at hk
  | cons x xs ih =>
    cases k with
    | zero => rfl
    | succ n => exact ih n (by simpa using hk)

theorem get_block_set_ne (l : List Block) (j k : Nat) (a : Block) (h : j ≠ k) :
    get_block (l.set k a) j = get_block l j := by
  unfold get_block
  induction l generalizing j k with
  | nil => simp
  | cons x xs ih =>
    cases k with
    | zero => cases j with
      | zero => exact absurd rfl h
      | succ m => simp [List.set]
    | succ n => cases j with
      | zero => simp [List.set]
      | succ m => simpa [List.set] using ih m n (by omega)

theorem set_get_block_self (l : List Block) (k : Nat) :
    l.set k (get_block l k) = l := by
  unfold get_block
  induction l generalizing k with
  | nil => rfl
  | cons x xs ih =>
    cases k with
    | zero => rfl
    | succ n => simpa [List.set] using ih n

theorem get_block_append_lt (l l2 : List Block) (j : Nat) (hj : j < l.length) :
    get_block (l ++ l2) j = get_block l j := by
  unfold get_block
  rw [List.getD_eq_getElem?_getD, List.getD_eq_getElem?_getD, List.getElem?_append, if_pos hj]

/-- `parse_keyid_hex16` only ever fails with the one fixed message. -/
theorem parse_keyid_hex16_error (s m : String)
    (h : parse_keyid_hex16 s = .error m) : m = keyid_err := by
  simp only [parse_keyid_hex16] at h
  split at h
  · exact (Except.error.inj h).symm
  · split at h
    · simp at h
    · exact (Except.error.inj h).symm

/-! ## C2: compaction preconditions and the −8 / height-3 mutation -/

/-- Helper carrying the success-case facts of the compaction fallback
(used both by the C2 claim theorem and by the loop invariants). -/
theorem try_compact_success_spec (table_width : Int) (st : LayoutState)
    (i : Nat) (bl2 : List Block) (g2 : RowGroup)
    (h : try_compact_last_keyid_to_fit table_width st i = (true, bl2, g2)) :
    st.current.columns ≠ [] ∧
    st.current.last_column_has_single_block = true ∧
    (get_block st.blocks st.current.last_block_index).key = "keyid" ∧
    (get_block st.blocks st.current.last_block_index).keyid_compact = false ∧
    st.current.last_column.width = (get_block st.blocks st.current.last_block_index).width ∧
    bl2 = st.blocks.set st.current.last_block_index
      { get_block st.blocks st.current.last_block_index with
        keyid_compact := true,
        content_width := (get_block st.blocks st.current.last_block_index).content_width - 8,
        width := (get_block st.blocks st.current.last_block_index).width - 8,
        height := 3 } := by
  simp only [try_compact_last_keyid_to_fit] at h
  split at h
  next => simp at h
  next hempty =>
    split at h
    next => simp at h
    next hsingle =>
      split at h
      next => simp at h
      next hkey =>
        split at h
        next => simp at h
        next hwidth =>
          split at h
          next => simp at h
          next hcw =>
            split at h
            next => simp at h
            next rebuilt hfold =>
              split at h
              next => simp at h
              next rebuilt2 hadd =>
                simp only [Prod.mk.injEq] at h
                push_neg at hkey
                refine ⟨?_, by simpa using hsingle, hkey.1, ?_, not_ne_iff.mp hwidth,
                  h.2.1.symm⟩
                · intro hc
                  exact hempty (by simp [hc])
                · simpa [Bool.not_eq_true] using hkey.2

/-- C2 (confirmed): a retained key-identifier compaction only happens
when the current group's last column holds a single block, that block
is a non-compact block with key `keyid`, and the last column's width
equals the block's width; the registry afterwards holds the block with
`keyid_compact` set, content width and total width each 8 smaller, and
height 3. -/
theorem compaction_preconditions_and_shrink (table_width : Int) (st : LayoutState)
    (i : Nat) (bl2 : List Block) (g2 : RowGroup)
    (h : try_compact_last_keyid_to_fit table_width st i = (true, bl2, g2)) :
    st.current.columns ≠ [] ∧
    st.current.last_column_has_single_block = true ∧
    (get_block st.blocks st.current.last_block_index).key = "keyid" ∧
    (get_block st.blocks st.current.last_block_index).keyid_compact = false ∧
    st.current.last_column.width = (get_block st.blocks st.current.last_block_index).width ∧
    bl2 = st.blocks.set st.current.last_block_index
      { get_block st.blocks st.current.last_block_index with
        keyid_compact := true,
        content_width := (get_block st.blocks st.current.last_block_index).content_width - 8,
        width := (get_block st.blocks st.current.last_block_index).width - 8,
        height := 3 } :=
  try_compact_success_spec table_width st i bl2 g2 h

/-! ## C3: the compaction fallback is transactional on failure -/

/-- Helper carrying the failure-case rollback facts of the compaction
fallback (used both by the C3 claim theorem and by the loop
invariants). -/
theorem try_compact_failure_spec (table_width : Int) (st : LayoutState)
    (i : Nat) (bl2 : List Block) (g2 : RowGroup)
    (h : try_compact_last_keyid_to_fit table_width st i = (false, bl2, g2)) :
    bl2 = st.blocks ∧ g2 = st.current := by
  simp only [try_compact_last_keyid_to_fit] at h
  repeat' split at h
  all_goals simp only [Prod.mk.injEq, set_get_block_self] at h
  all_goals first
  | exact absurd h.1 (by decide)
  | exact ⟨h.2.1.symm, h.2.2.symm⟩

/-- C3 (confirmed): whenever `try_compact_last_keyid_to_fit` reports
failure, the block registry and the current `RowGroup` it leaves behind
are exactly the ones it started from — in particular the deep failure
paths, which write the saved copy back over the mutated block, restore
the registry bit for bit. -/
theorem compaction_failure_is_rollback (table_width : Int) (st : LayoutState)
    (i : Nat) (bl2 : List Block) (g2 : RowGroup)
    (h : try_compact_last_keyid_to_fit table_width st i = (false, bl2, g2)) :
    bl2 = st.blocks ∧ g2 = st.current :=
  try_compact_failure_spec table_width st i bl2 g2 h

/-- Witness for C2: the Scenario C state (table width 30, lone
key-identifier block, 14-wide follower) satisfies all preconditions and
the retained compaction shrinks the block as stated. -/
theorem compaction_preconditions_witness :
    compaction_state_ex.current.columns ≠ [] ∧
    compaction_state_ex.current.last_column_has_single_block = true ∧
    (get_block compaction_state_ex.blocks compaction_state_ex.current.last_block_index).key =
      "keyid" ∧
    (get_block compaction_state_ex.blocks
      compaction_state_ex.current.last_block_index).keyid_compact = false ∧
    compaction_state_ex.current.last_column.width =
      (get_block compaction_state_ex.blocks compaction_state_ex.current.last_block_index).width ∧
    compaction_result_ex.2.1 = compaction_state_ex.blocks.set
      compaction_state_ex.current.last_block_index
      { get_block compaction_state_ex.blocks compaction_state_ex.current.last_block_index with
        keyid_compact := true,
        content_width := (get_block compaction_state_ex.blocks
          compaction_state_ex.current.last_block_index).content_width - 8,
        width := (get_block compaction_state_ex.blocks
          compaction_state_ex.current.last_block_index).width - 8,
        height := 3 } :=
  compaction_preconditions_and_shrink 30 compaction_state_ex 1
    compaction_result_ex.2.1 compaction_result_ex.2.2 (by rfl)

/-- Witness for C3: at table width 20 the rebuild fails (10 + 12 > 20
and the compacted column cannot stack the follower), and the attempt
leaves registry and current group untouched. -/
theorem compaction_rollback_witness :
    rollback_result_ex.2.1 = rollback_state_ex.blocks ∧
    rollback_result_ex.2.2 = rollback_state_ex.current :=
  compaction_failure_is_rollback 20 rollback_state_ex 1
    rollback_result_ex.2.1 rollback_result_ex.2.2 (by rfl)

/-! ## C4: the height-growth path of `RowGroup::add` is transactional -/

/-- C4 (confirmed): when a block taller than the current group arrives,
`add` is exactly the outcome of replaying all existing blocks plus the
new one into a fresh group of the new height: if any replay step fails,
`add` reports failure and — values being immutable here, just as the
C++ code only mutates a local `temp` before the final self-assignment —
the original group is unchanged; if the replay succeeds, the result is
the newly built group. -/
theorem height_growth_transactional (blocks : List Block) (rg : RowGroup) (i : Nat)
    (hne : rg.columns ≠ []) (hh : rg.height < (get_block blocks i).height) :
    (rg.growth_replay blocks i = none → rg.add blocks i = none) ∧
    (∀ t, rg.growth_replay blocks i = some t →
      rg.add blocks i = some (t.new_block_added blocks i)) := by
  have hE : ¬ (rg.columns.isEmpty = true) := by simp [List.isEmpty_iff, hne]
  have hH : (get_block blocks i).height > rg.height := hh
  constructor
  · intro hnone
    simp only [RowGroup.growth_replay] at hnone
    simp only [RowGroup.add, if_neg hE, if_pos hH, hnone]
  · intro t ht
    simp only [RowGroup.growth_replay] at ht
    simp only [RowGroup.add, if_neg hE, if_pos hH, ht]

/-- Witness for C4: a height-9 block arriving at a height-2 group with
one 3-wide column replays successfully into a two-column height-9
group. -/
theorem height_growth_witness :
    growth_group_ex.add growth_blocks_ex 1 = some
      (({ table_width := 15, height := 9,
          columns := [{ width := 3, height := 2, blocks := [0] },
                      { width := 10, height := 9, blocks := [1] }],
          keyid := -1 } : RowGroup).new_block_added growth_blocks_ex 1) :=
  (height_growth_transactional growth_blocks_ex growth_group_ex 1 (by decide)
    (by decide)).2 _ (by rfl)

/-! ## Monad-reduction helpers for `Except` -/

theorem bind_ok_eq {α β : Type} (a : α) (f : α → Except String β) :
    (Bind.bind (Except.ok a) f : Except String β) = f a := rfl

theorem bind_error_eq {α β : Type} (m : String) (f : α → Except String β) :
    (Bind.bind (Except.error m) f : Except String β) = .error m := rfl

/-! ## C7: negative margins are not rejected -/

/-- Counterexample for C7: the sheet with one block whose left margin
is the negative integer −3 is accepted, and the block's total width is
silently reduced to 5 − 3 = 2 — no validation error is raised. -/
theorem negative_margin_accepted_example :
    layout_sheet 10 [c7_entry] = .ok ([c7_block], [c7_group]) ∧
    c7_block.margin_left = -3 ∧ c7_block.width = 2 :=
  ⟨rfl, rfl, rfl⟩

/-- C7 as amended: block construction does not validate margin signs.
Any integer margins (negative ones included) are accepted, the block's
total width is content width plus both margins, and the only width
check is against the table width. -/
theorem margin_parsing_ignores_sign (table_width : Int) (lbl key hdr data : String)
    (ml mr : Int)
    (hk : ¬(key = "keyid" ∨ key = "keyid3"))
    (hw : data_width data + ml + mr ≤ table_width) :
    mk_block table_width lbl ⟨key, hdr, data, some (.jint ml), some (.jint mr)⟩ =
      .ok { key := key, header := hdr, data := data, keyid_hex16 := "",
            width := data_width data + ml + mr, content_width := data_width data,
            height := data_height data, margin_left := ml, margin_right := mr,
            keyid_compact := key == "keyid3" } := by
  have h1 : key ≠ "keyid" := fun hc => hk (Or.inl hc)
  have h2 : key ≠ "keyid3" := fun hc => hk (Or.inr hc)
  simp only [mk_block, parse_margin, parse_int, bind_ok_eq, if_neg h1, if_neg h2,
    if_neg hk, if_neg (not_lt.mpr hw)]
  rfl

/-- Witness for the amended C7, at the concrete negative-margin entry. -/
theorem negative_margin_witness :
    mk_block 10 "sheet" ⟨"note", "Header", "hello", some (.jint (-3)), some (.jint 0)⟩ =
      .ok { key := "note", header := "Header", data := "hello", keyid_hex16 := "",
            width := data_width "hello" + -3 + 0, content_width := data_width "hello",
            height := data_height "hello", margin_left := -3, margin_right := 0,
            keyid_compact := "note" == "keyid3" } :=
  margin_parsing_ignores_sign 10 "sheet" "note" "Header" "hello" (-3) 0
    (by decide) (by decide)

/-! ## C8: malformed key-identifier data is rejected, but with a generic message -/

/-- Counterexample for C8: the sheet containing a `keyid3` block with
non-hex data is rejected, but the error message is the fixed generic
string, which names neither the block's key `keyid3` nor any field
path (no occurrence of the sheet label either). -/
theorem keyid_error_not_named_example :
    layout_sheet 40 [c8_entry] = .error keyid_err ∧
    has_substring "keyid3".toList keyid_err.toList = false ∧
    has_substring "sheet".toList keyid_err.toList = false :=
  ⟨rfl, by decide, by decide⟩

/-- C8 as amended: a key-identifier block whose data fails the hex
check makes block construction (and hence the sheet) fail, but always
with the one fixed message `keyid_err`, independent of the block's key
and of the field path. -/
theorem keyid_error_message_generic (table_width : Int) (lbl : String) (e : Entry)
    (ml mr : Int) (m : String)
    (hk : e.key = "keyid" ∨ e.key = "keyid3")
    (hml : parse_margin e.margin_left (lbl ++ ".margins." ++ e.key ++ ".left") = .ok ml)
    (hmr : parse_margin e.margin_right (lbl ++ ".margins." ++ e.key ++ ".right") = .ok mr)
    (hhex : parse_keyid_hex16 e.data = .error m) :
    mk_block table_width lbl e = .error m ∧ m = keyid_err := by
  refine ⟨?_, parse_keyid_hex16_error _ _ hhex⟩
  simp only [mk_block, hml, hmr, bind_ok_eq, if_pos hk, hhex, bind_error_eq]

/-- Witness for the amended C8 at the Scenario E entry. -/
theorem keyid_error_witness :
    mk_block 40 "sheet" c8_entry = .error keyid_err ∧ keyid_err = keyid_err :=
  keyid_error_message_generic 40 "sheet" c8_entry 0 0 keyid_err (Or.inr rfl) rfl rfl rfl

/-! ## C9: grid36 data rows -/

/-- Counterexample for C9: a grid36 data row at a non-separator offset
has exactly 37 cells (the alphabet has 37 symbols), not 38. -/
theorem grid36_row_has_37_cells_example :
    write_block_data_row grid36_block_ex 0 = .ok grid36_cells_ex ∧
    grid36_cells_ex.length = 37 ∧ grid36_cells_ex.length ≠ 38 :=
  ⟨rfl, rfl, by decide⟩

/-- C9 as amended: for a margin-free grid36 block, every data row
offset with `offset % 5 < 4` emits the 37-cell row cycling through the
fixed alphabet (one single-span cell per symbol), and every offset with
`offset % 5 = 4` emits exactly two cells: a single-character cell and a
blank cell spanning 36 units. -/
theorem grid36_row_shape (b : Block) (dri : Int)
    (hk : ¬(b.key = "keyid" ∨ b.key = "keyid3"))
    (hd : b.data = "grid36") (hml : b.margin_left = 0) (hmr : b.margin_right = 0) :
    (dri % 5 < 4 →
      write_block_data_row b dri = .ok grid36_cells_ex ∧ grid36_cells_ex.length = 37) ∧
    (dri % 5 = 4 →
      write_block_data_row b dri =
        .ok [{ colspan := 1, rowspan := 1, text := "-" },
             { colspan := 36, rowspan := 1, text := "" }]) := by
  have hd10 : ¬ b.data = "grid10" := by rw [hd]; decide
  constructor
  · intro h4
    refine ⟨?_, by decide⟩
    simp only [write_block_data_row, if_neg hk, if_neg hd10, if_pos hd, if_pos h4,
      bind_ok_eq, hml, hmr, grid36_cells_ex]
    rfl
  · intro h5
    have h4 : ¬ dri % 5 < 4 := by omega
    simp only [write_block_data_row, if_neg hk, if_neg hd10, if_pos hd, if_neg h4,
      bind_ok_eq, hml, hmr]
    rfl

/-- Witness for the amended C9 at the concrete grid36 block, separator
offset 4. -/
theorem grid36_separator_witness :
    write_block_data_row grid36_block_ex 4 =
      .ok [{ colspan := 1, rowspan := 1, text := "-" },
           { colspan := 36, rowspan := 1, text := "" }] :=
  (grid36_row_shape grid36_block_ex 4 (by decide) rfl rfl rfl).2 (by decide)

/-! ## Order preservation: every layout operation appends the new block
at the end of the group's block order -/

theorem bind_eq_ok {α β : Type} (x : Except String α) (f : α → Except String β) (b : β)
    (h : Bind.bind x f = .ok b) : ∃ a, x = .ok a ∧ f a = .ok b := by
  cases x with
  | ok a => exact ⟨a, rfl, h⟩
  | error m => rw [bind_error_eq] at h; cases h

theorem new_block_added_columns (rg : RowGroup) (blocks : List Block) (i : Nat) :
    (rg.new_block_added blocks i).columns = rg.columns := by
  unfold RowGroup.new_block_added; split <;> rfl

theorem new_block_added_height (rg : RowGroup) (blocks : List Block) (i : Nat) :
    (rg.new_block_added blocks i).height = rg.height := by
  unfold RowGroup.new_block_added; split <;> rfl

theorem new_block_added_table_width (rg : RowGroup) (blocks : List Block) (i : Nat) :
    (rg.new_block_added blocks i).table_width = rg.table_width := by
  unfold RowGroup.new_block_added; split <;> rfl

theorem new_block_added_bio (rg : RowGroup) (blocks : List Block) (i : Nat) :
    (rg.new_block_added blocks i).blocks_in_order = rg.blocks_in_order := by
  unfold RowGroup.blocks_in_order
  rw [new_block_added_columns]

theorem bio_empty (rg : RowGroup) (h : rg.columns = []) :
    rg.blocks_in_order = [] := by
  unfold RowGroup.blocks_in_order
  rw [h]; rfl

theorem add_new_column_bio (rg : RowGroup) (blocks : List Block) (i : Nat) :
    (rg.add_new_column blocks i).blocks_in_order = rg.blocks_in_order ++ [i] := by
  unfold RowGroup.add_new_column RowGroup.blocks_in_order
  simp

theorem add_to_last_bio (rg rg2 : RowGroup) (blocks : List Block) (i : Nat)
    (h : rg.add_to_last_column_if_fits blocks i = some rg2) :
    rg2.blocks_in_order = rg.blocks_in_order ++ [i] := by
  simp only [RowGroup.add_to_last_column_if_fits] at h
  split at h
  · cases h
  next col hlast =>
    split at h
    · cases h
    · split at h
      · cases h
      · obtain rfl := Option.some.inj h
        have hdec : rg.columns.dropLast ++ [col] = rg.columns :=
          List.dropLast_append_getLast? col hlast
        unfold RowGroup.blocks_in_order
        conv =>
          rhs
          rw [← hdec]
        simp

theorem add_new_column_if_fits_bio (rg rg2 : RowGroup) (blocks : List Block) (i : Nat)
    (h : rg.add_new_column_if_fits blocks i = some rg2) :
    rg2.blocks_in_order = rg.blocks_in_order ++ [i] := by
  simp only [RowGroup.add_new_column_if_fits] at h
  split at h
  · cases h
  · obtain rfl := Option.some.inj h
    exact add_new_column_bio rg blocks i

theorem add_fixed_height_bio (rg rg2 : RowGroup) (blocks : List Block) (i : Nat)
    (h : rg.add_fixed_height blocks i = some rg2) :
    rg2.blocks_in_order = rg.blocks_in_order ++ [i] := by
  simp only [RowGroup.add_fixed_height] at h
  split at h
  · obtain rfl := Option.some.inj h
    exact add_new_column_bio rg blocks i
  · split at h
    next rg3 hsome =>
      obtain rfl := Option.some.inj h
      exact add_to_last_bio rg _ blocks i hsome
    next =>
      exact add_new_column_if_fits_bio rg rg2 blocks i h

/-- Any step function that appends the new index to the block order
does so across a whole `foldlM` replay. -/
theorem foldlM_bio (step : RowGroup → Nat → Option RowGroup)
    (hstep : ∀ g j g2, step g j = some g2 →
      g2.blocks_in_order = g.blocks_in_order ++ [j]) :
    ∀ (l : List Nat) (t t2 : RowGroup), l.foldlM step t = some t2 →
      t2.blocks_in_order = t.blocks_in_order ++ l := by
  intro l
  induction l with
  | nil => intro t t2 h; obtain rfl := Option.some.inj h; simp
  | cons j l ih =>
    intro t t2 h
    rw [List.foldlM_cons] at h
    obtain ⟨t1, h1, h2⟩ := Option.bind_eq_some.mp h
    rw [ih t1 t2 h2, hstep t j t1 h1]
    simp

theorem add_bio (rg rg2 : RowGroup) (blocks : List Block) (i : Nat)
    (h : rg.add blocks i = some rg2) :
    rg2.blocks_in_order = rg.blocks_in_order ++ [i] := by
  simp only [RowGroup.add] at h
  split at h
  next hempty =>
    obtain rfl := Option.some.inj h
    rw [new_block_added_bio, add_new_column_bio]
    have hc : rg.columns = [] := List.isEmpty_iff.mp hempty
    simp [RowGroup.blocks_in_order, hc]
  next hempty =>
    split at h
    next hgrow =>
      split at h
      · cases h
      next temp hfold =>
        obtain rfl := Option.some.inj h
        rw [new_block_added_bio]
        have := foldlM_bio (fun g j => g.add_fixed_height blocks j)
          (fun g j g2 hg => add_fixed_height_bio g g2 blocks j hg)
          (rg.blocks_in_order ++ [i]) _ temp hfold
        rw [this]
        rfl
    next hgrow =>
      split at h
      next rg3 hsome =>
        obtain rfl := Option.some.inj h
        rw [new_block_added_bio]
        exact add_to_last_bio rg rg3 blocks i hsome
      next =>
        split at h
        next rg3 hsome =>
          obtain rfl := Option.some.inj h
          rw [new_block_added_bio]
          exact add_new_column_if_fits_bio rg rg3 blocks i hsome
        next => cases h

/-- The successful compaction fallback also appends the new block at
the end of the (otherwise order-preserving) rebuilt group. -/
theorem try_compact_bio (table_width : Int) (st : LayoutState) (i : Nat)
    (bl2 : List Block) (g2 : RowGroup)
    (h : try_compact_last_keyid_to_fit table_width st i = (true, bl2, g2)) :
    g2.blocks_in_order = st.current.blocks_in_order ++ [i] := by
  simp only [try_compact_last_keyid_to_fit] at h
  split at h
  next => simp at h
  next =>
    split at h
    next => simp at h
    next =>
      split at h
      next => simp at h
      next =>
        split at h
        next => simp at h
        next =>
          split at h
          next => simp at h
          next =>
            split at h
            next => simp at h
            next rebuilt hfold =>
              split at h
              next => simp at h
              next rebuilt2 hadd =>
                simp only [Prod.mk.injEq] at h
                obtain ⟨-, -, hg⟩ := h
                subst hg
                rw [add_bio rebuilt rebuilt2 _ i hadd,
                  foldlM_bio _ (fun g j g3 hg3 => add_bio g g3 _ j hg3) _ _ rebuilt hfold]
                rfl

/-! ## Inverting block construction -/

/-- Successful block construction determines every field of the block
from the entry: the exact record the source builds, plus the width
check against the table width. -/
theorem mk_block_ok_inv (tw : Int) (lbl : String) (e : Entry) (b : Block)
    (h : mk_block tw lbl e = .ok b) :
    ∃ ml mr hex,
      parse_margin e.margin_left (lbl ++ ".margins." ++ e.key ++ ".left") = .ok ml ∧
      parse_margin e.margin_right (lbl ++ ".margins." ++ e.key ++ ".right") = .ok mr ∧
      (if e.key = "keyid" ∨ e.key = "keyid3" then parse_keyid_hex16 e.data
       else pure "") = .ok hex ∧
      b = { key := e.key, header := e.header, data := e.data, keyid_hex16 := hex,
            width := (if e.key = "keyid" then 18 else if e.key = "keyid3" then (10 : Int)
                      else data_width e.data) + ml + mr,
            content_width := (if e.key = "keyid" then 18 else if e.key = "keyid3" then (10 : Int)
                      else data_width e.data),
            height := (if e.key = "keyid" then 2 else if e.key = "keyid3" then (3 : Int)
                      else data_height e.data),
            margin_left := ml, margin_right := mr,
            keyid_compact := e.key == "keyid3" } ∧
      b.width ≤ tw := by
  simp only [mk_block] at h
  obtain ⟨ml, hml, h⟩ := bind_eq_ok _ _ _ h
  obtain ⟨mr, hmr, h⟩ := bind_eq_ok _ _ _ h
  by_cases hk : e.key = "keyid" ∨ e.key = "keyid3"
  · rw [if_pos hk] at h
    obtain ⟨hex, hhex, h⟩ := bind_eq_ok _ _ _ h
    by_cases hw : (if e.key = "keyid" then (18 : Int) else if e.key = "keyid3" then 10
        else data_width e.data) + ml + mr > tw
    · rw [if_pos hw] at h; simp at h
    · rw [if_neg hw] at h
      obtain hb := Except.ok.inj h
      subst hb
      exact ⟨ml, mr, hex, hml, hmr, by rw [if_pos hk]; exact hhex, rfl, not_lt.mp hw⟩
  · rw [if_neg hk] at h
    obtain ⟨hex, hhex, h⟩ := bind_eq_ok _ _ _ h
    by_cases hw : (if e.key = "keyid" then (18 : Int) else if e.key = "keyid3" then 10
        else data_width e.data) + ml + mr > tw
    · rw [if_pos hw] at h; simp at h
    · rw [if_neg hw] at h
      obtain hb := Except.ok.inj h
      subst hb
      exact ⟨ml, mr, hex, hml, hmr, by rw [if_neg hk]; exact hhex, rfl, not_lt.mp hw⟩

theorem mk_block_ok_key (tw : Int) (lbl : String) (e : Entry) (b : Block)
    (h : mk_block tw lbl e = .ok b) : b.key = e.key := by
  obtain ⟨ml, mr, hex, -, -, -, hb, -⟩ := mk_block_ok_inv tw lbl e b h
  rw [hb]

theorem get_block_append_self (l : List Block) (b : Block) :
    get_block (l ++ [b]) l.length = b := by
  unfold get_block
  rw [List.getD_eq_getElem?_getD, List.getElem?_append, if_neg (lt_irrefl _)]
  simp

/-- Setting a block that keeps its key leaves every key in the
registry unchanged. -/
theorem keys_set_invariant (l : List Block) (k : Nat) (bnew : Block)
    (hkey : bnew.key = (get_block l k).key) (j : Nat) :
    (get_block (l.set k bnew) j).key = (get_block l j).key := by
  by_cases hj : j = k
  · subst hj
    by_cases hl : j < l.length
    · rw [get_block_set_self l j bnew hl, hkey]
    · rw [List.set_eq_of_length_le (le_of_not_lt hl)]
  · rw [get_block_set_ne l j k bnew hj]

/-! ## One packing-loop iteration: length, keys, and block order -/

/-- `process_block` adds exactly one block to the registry, preserves
every block's key (appending the new one at the end), and appends the
new block's index at the end of the flattened group order. -/
theorem process_block_order (tw : Int) (st st2 : LayoutState) (b : Block)
    (h : process_block tw st b = .ok st2) :
    st2.blocks.length = st.blocks.length + 1 ∧
    (∀ j : Nat, (get_block st2.blocks j).key = (get_block (st.blocks ++ [b]) j).key) ∧
    (st2.groups.map RowGroup.blocks_in_order).flatten ++ st2.current.blocks_in_order
      = (st.groups.map RowGroup.blocks_in_order).flatten ++ st.current.blocks_in_order
        ++ [st.blocks.length] := by
  simp only [process_block] at h
  split at h
  next g hadd =>
    obtain hst := Except.ok.inj h
    subst hst
    refine ⟨by simp, fun j => rfl, ?_⟩
    rw [add_bio st.current g _ _ hadd]
    simp
  next hfail =>
    split at h
    next blocks3 cur3 heq =>
      obtain hst := Except.ok.inj h
      subst hst
      obtain ⟨-, -, -, -, -, hbl⟩ :=
        try_compact_success_spec tw _ _ _ _ heq
      refine ⟨?_, ?_, ?_⟩
      · rw [hbl]; simp
      · intro j
        rw [hbl]
        dsimp only
        refine keys_set_invariant (st.blocks ++ [b]) st.current.last_block_index _ ?_ j
        rfl
      · rw [try_compact_bio tw _ _ _ _ heq]
        simp
    next blocks3 cur3 heq =>
      obtain ⟨hbl3, hcur3⟩ := try_compact_failure_spec tw _ _ _ _ heq
      split at h
      next g hadd2 =>
        obtain hst := Except.ok.inj h
        subst hst
        subst hbl3
        subst hcur3
        have hg : g.blocks_in_order = [st.blocks.length] := by
          have := add_bio _ g _ _ hadd2
          rw [this]
          rfl
        refine ⟨by simp, fun j => rfl, ?_⟩
        split
        next hce =>
          rw [hg, bio_empty st.current (List.isEmpty_iff.mp hce)]
          simp
        next =>
          rw [hg]
          simp
      next => cases h

/-! ## The packing loop over all entries -/

/-- Folding the per-entry step over any entry list: the registry grows
by one block per entry, pre-existing keys are unchanged, the new
blocks' keys are the entries' keys in order, and the flattened group
order is extended by the new indices in order. -/
theorem layout_entries_order (tw : Int) (lbl : String) :
    ∀ (entries : List Entry) (st st2 : LayoutState),
    entries.foldlM
      (fun st e => do
        let b ← mk_block tw lbl e
        process_block tw st b) st = .ok st2 →
    st2.blocks.length = st.blocks.length + entries.length ∧
    (∀ j, j < st.blocks.length →
      (get_block st2.blocks j).key = (get_block st.blocks j).key) ∧
    (∀ r, r < entries.length →
      (get_block st2.blocks (st.blocks.length + r)).key = (entries.getD r default).key) ∧
    (st2.groups.map RowGroup.blocks_in_order).flatten ++ st2.current.blocks_in_order
      = (st.groups.map RowGroup.blocks_in_order).flatten ++ st.current.blocks_in_order
        ++ List.range' st.blocks.length entries.length := by
  intro entries
  induction entries with
  | nil =>
    intro st st2 h
    obtain hst := Except.ok.inj h
    subst hst
    exact ⟨rfl, fun j _ => rfl, fun r hr => absurd hr (Nat.not_lt_zero r), by simp⟩
  | cons e rest ih =>
    intro st st2 h
    rw [List.foldlM_cons] at h
    obtain ⟨st1, h1, h2⟩ := bind_eq_ok _ _ _ h
    obtain ⟨b, hb, hp⟩ := bind_eq_ok _ _ _ h1
    obtain ⟨hlen1, hkeys1, horder1⟩ := process_block_order tw st st1 b hp
    obtain ⟨hlen2, hkeysold, hkeysnew, horder2⟩ := ih st1 st2 h2
    refine ⟨by simp only [List.length_cons]; omega, ?_, ?_, ?_⟩
    · intro j hj
      rw [hkeysold j (by omega), hkeys1 j,
        get_block_append_lt st.blocks [b] j hj]
    · intro r hr
      cases r with
      | zero =>
        have hlt : st.blocks.length < st1.blocks.length := by omega
        rw [Nat.add_zero, hkeysold st.blocks.length hlt, hkeys1 st.blocks.length,
          get_block_append_self st.blocks b]
        exact mk_block_ok_key tw lbl e b hb
      | succ r2 =>
        have hr2 : r2 < rest.length := by simpa using hr
        have harith : st.blocks.length + (r2 + 1) = st1.blocks.length + r2 := by omega
        rw [harith, hkeysnew r2 hr2]
        rfl
    · rw [horder2, horder1, hlen1]
      have hr : List.range' st.blocks.length (rest.length + 1) 1
          = st.blocks.length :: List.range' (st.blocks.length + 1) rest.length 1 :=
        List.range'_succ st.blocks.length rest.length 1
      simp only [List.length_cons, hr]
      simp

/-! ## C6: blocks appear in the output exactly once, in input order -/

/-- C6 (confirmed): a successful layout places every block exactly
once, and concatenating the finalized groups' blocks in output order
(columns left to right, inside a column top to bottom) yields exactly
the indices 0, 1, 2, … in the original entry order; moreover the
registry has one block per entry, with matching keys, also after
height-growth rebuilds and compaction rebuilds. -/
theorem blocks_preserve_input_order (table_width : Int) (entries : List Entry)
    (blocks : List Block) (groups : List RowGroup)
    (h : layout_sheet table_width entries = .ok (blocks, groups)) :
    (groups.map RowGroup.blocks_in_order).flatten = List.range entries.length ∧
    blocks.length = entries.length ∧
    (∀ j, j < entries.length →
      (get_block blocks j).key = (entries.getD j default).key) := by
  simp only [layout_sheet] at h
  obtain ⟨st, hst, hout⟩ := bind_eq_ok _ _ _ h
  obtain hpair := Except.ok.inj hout
  simp only [Prod.mk.injEq] at hpair
  obtain ⟨hbl, hgr⟩ := hpair
  obtain ⟨hlen, -, hkeys, horder⟩ :=
    layout_entries_order table_width "sheet" entries (init_state table_width) st hst
  have hlen0 : st.blocks.length = entries.length := by
    simpa [init_state] using hlen
  have horder0 : (st.groups.map RowGroup.blocks_in_order).flatten
      ++ st.current.blocks_in_order = List.range entries.length := by
    rw [horder]
    simp [init_state, RowGroup.blocks_in_order, List.range_eq_range']
  refine ⟨?_, ?_, ?_⟩
  · rw [← hgr]
    by_cases hce : st.current.columns.isEmpty
    · rw [if_pos hce]
      rw [bio_empty st.current (List.isEmpty_iff.mp hce)] at horder0
      simpa using horder0
    · rw [if_neg hce]
      simpa using horder0
  · rw [← hbl, hlen0]
  · intro j hj
    rw [← hbl]
    have := hkeys j (by simpa using hj)
    simpa [init_state] using this

/-- Witness for C6 at the concrete two-entry sheet. -/
theorem blocks_preserve_input_order_witness :
    (c6_result.2.map RowGroup.blocks_in_order).flatten = List.range c6_entries.length ∧
    c6_result.1.length = c6_entries.length ∧
    (get_block c6_result.1 0).key = (c6_entries.getD 0 default).key ∧
    (get_block c6_result.1 1).key = (c6_entries.getD 1 default).key := by
  have H := blocks_preserve_input_order 40 c6_entries c6_result.1 c6_result.2 (by rfl)
  exact ⟨H.1, H.2.1, H.2.2 0 (by decide), H.2.2 1 (by decide)⟩

/-! ## Transfer lemmas for the invariants -/

theorem get_block_mem (blocks : List Block) (j : Nat) (hj : j < blocks.length) :
    get_block blocks j ∈ blocks := by
  unfold get_block
  rw [List.getD_eq_getElem?_getD, List.getElem?_eq_getElem hj]
  exact List.getElem_mem _

theorem mem_bio (g : RowGroup) (j : Nat) :
    j ∈ g.blocks_in_order ↔ ∃ c ∈ g.columns, j ∈ c.blocks := by
  unfold RowGroup.blocks_in_order
  simp [List.mem_flatten]

theorem mem_bio_of_col (g : RowGroup) (c : Column) (j : Nat)
    (hc : c ∈ g.columns) (hj : j ∈ c.blocks) : j ∈ g.blocks_in_order :=
  (mem_bio g j).mpr ⟨c, hc, hj⟩

/-- A column's well-formedness only looks at the blocks it references. -/
theorem ColWF_congr (blocks blocks2 : List Block) (H : Int) (c : Column)
    (hlen : blocks.length ≤ blocks2.length)
    (hsame : ∀ j ∈ c.blocks, get_block blocks2 j = get_block blocks j)
    (h : ColWF blocks H c) : ColWF blocks2 H c where
  nonempty := h.nonempty
  inbounds := fun i hi => lt_of_lt_of_le (h.inbounds i hi) hlen
  height_eq := by
    rw [h.height_eq]
    exact congrArg List.sum (List.map_congr_left fun i hi =>
      congrArg Block.height (hsame i hi).symm)
  width_mem := by
    obtain ⟨i, hi, heq⟩ := h.width_mem
    exact ⟨i, hi, by rw [hsame i hi]; exact heq⟩
  width_ub := fun i hi => hsame i hi ▸ h.width_ub i hi
  height_le := h.height_le

/-- A group's well-formedness only looks at the blocks it references. -/
theorem GroupWF_congr (blocks blocks2 : List Block) (tw : Int) (g : RowGroup)
    (hlen : blocks.length ≤ blocks2.length)
    (hsame : ∀ j ∈ g.blocks_in_order, get_block blocks2 j = get_block blocks j)
    (h : GroupWF blocks tw g) : GroupWF blocks2 tw g where
  tweq := h.tweq
  cols := fun c hc => ColWF_congr blocks blocks2 g.height c hlen
    (fun j hj => hsame j (mem_bio_of_col g c j hc hj)) (h.cols c hc)
  sumw := h.sumw

theorem GroupWF_append (blocks : List Block) (b : Block) (tw : Int) (g : RowGroup)
    (h : GroupWF blocks tw g) : GroupWF (blocks ++ [b]) tw g := by
  refine GroupWF_congr blocks (blocks ++ [b]) tw g (by simp) ?_ h
  intro j hj
  obtain ⟨c, hc, hjc⟩ := (mem_bio g j).mp hj
  exact get_block_append_lt blocks [b] j ((h.cols c hc).inbounds j hjc)

theorem GroupWF_set_ne (blocks : List Block) (k : Nat) (bnew : Block) (tw : Int)
    (g : RowGroup) (hk : ∀ j ∈ g.blocks_in_order, j ≠ k)
    (h : GroupWF blocks tw g) : GroupWF (blocks.set k bnew) tw g := by
  refine GroupWF_congr blocks (blocks.set k bnew) tw g (by simp) ?_ h
  intro j hj
  exact get_block_set_ne blocks j k bnew (hk j hj)

/-- `RegistryOK` facts for an in-bounds index. -/
theorem RegistryOK_get (tw : Int) (blocks : List Block) (hreg : RegistryOK tw blocks)
    (j : Nat) (hj : j < blocks.length) :
    BlockOK (get_block blocks j) ∧ (get_block blocks j).width ≤ tw :=
  hreg (get_block blocks j) (get_block_mem blocks j hj)

theorem BlockOK_width_nonneg (b : Block) (h : BlockOK b) : 0 ≤ b.width := by
  have := h.width_eq
  have := h.ml_nonneg
  have := h.mr_nonneg
  have := h.cw_nonneg
  omega

/-- Every member of a well-formed column is no taller than the column. -/
theorem member_height_le (tw : Int) (blocks : List Block) (H : Int) (c : Column)
    (hreg : RegistryOK tw blocks) (hc : ColWF blocks H c) (j : Nat) (hj : j ∈ c.blocks) :
    (get_block blocks j).height ≤ c.height := by
  rw [hc.height_eq]
  refine List.single_le_sum ?_ _ (List.mem_map_of_mem _ hj)
  intro x hx
  obtain ⟨i, hi, rfl⟩ := List.mem_map.mp hx
  have hok := (RegistryOK_get tw blocks hreg i (hc.inbounds i hi)).1
  have := hok.h_pos
  omega

/-! ## Construction produces well-shaped blocks -/

theorem data_width_nonneg (d : String) : 0 ≤ data_width d := by
  unfold data_width
  split
  · norm_num
  · split
    · norm_num
    · exact Int.ofNat_nonneg _

theorem data_height_pos (d : String) : 1 ≤ data_height d := by
  unfold data_height grid10_height
  split
  · norm_num
  · split <;> norm_num

theorem parse_keyid_hex16_ok_length (s hex : String)
    (h : parse_keyid_hex16 s = .ok hex) : hex.length = 16 := by
  simp only [parse_keyid_hex16] at h
  split at h
  · cases h
  next hlen =>
    split at h
    · obtain rfl := Except.ok.inj h
      exact not_ne_iff.mp hlen
    · cases h

theorem parse_margin_valid (m : Option JVal) (path : String) (ml : Int)
    (hv : ValidMargin m) (h : parse_margin m path = .ok ml) : 0 ≤ ml := by
  cases m with
  | none => obtain rfl := Except.ok.inj h; norm_num
  | some v =>
    obtain ⟨n, rfl, hn⟩ := hv v rfl
    simp only [parse_margin, parse_int] at h
    obtain rfl := Except.ok.inj h
    exact hn

/-- A successfully constructed block from a valid entry satisfies the
shape invariant and fits the table. -/
theorem mk_block_valid (tw : Int) (lbl : String) (e : Entry) (b : Block)
    (hv : ValidEntry e) (h : mk_block tw lbl e = .ok b) :
    BlockOK b ∧ b.width ≤ tw := by
  obtain ⟨ml, mr, hex, hml, hmr, hhex, hb, hw⟩ := mk_block_ok_inv tw lbl e b h
  have hml0 : 0 ≤ ml := parse_margin_valid _ _ ml hv.1 hml
  have hmr0 : 0 ≤ mr := parse_margin_valid _ _ mr hv.2 hmr
  refine ⟨?_, hw⟩
  subst hb
  by_cases hk : e.key = "keyid" ∨ e.key = "keyid3"
  · rw [if_pos hk] at hhex
    have hlen : hex.length = 16 := parse_keyid_hex16_ok_length _ _ hhex
    by_cases hk3 : e.key = "keyid3"
    · have hkne : e.key ≠ "keyid" := by rw [hk3]; decide
      refine ⟨hml0, hmr0, by simp [if_neg hkne, if_pos hk3], ?_, ?_, ?_, ?_⟩
      · simp [if_neg hkne, if_pos hk3]
      · simp [if_neg hkne, if_pos hk3]
      · intro _
        refine ⟨hlen, ?_, ?_⟩
        · intro _
          constructor <;> simp [if_neg hkne, if_pos hk3]
        · intro hcf
          exfalso
          rw [hk3] at hcf
          simp at hcf
      · intro hnk
        exact absurd hk hnk
    · have hk1 : e.key = "keyid" := hk.resolve_right hk3
      refine ⟨hml0, hmr0, by simp [if_pos hk1], ?_, ?_, ?_, ?_⟩
      · simp [if_pos hk1]
      · simp [if_pos hk1]
      · intro _
        refine ⟨hlen, ?_, ?_⟩
        · intro hct
          exfalso
          rw [hk1] at hct
          simp at hct
        · intro _
          constructor <;> simp [if_pos hk1]
      · intro hnk
        exact absurd hk hnk
  · have hk1 : e.key ≠ "keyid" := fun hc => hk (Or.inl hc)
    have hk3 : e.key ≠ "keyid3" := fun hc => hk (Or.inr hc)
    refine ⟨hml0, hmr0, by simp [if_neg hk1, if_neg hk3], ?_, ?_, ?_, ?_⟩
    · simp only [if_neg hk1, if_neg hk3]
      exact data_height_pos e.data
    · simp only [if_neg hk1, if_neg hk3]
      exact data_width_nonneg e.data
    · intro hkk
      exact absurd hkk hk
    · intro _
      constructor <;> simp [if_neg hk1, if_neg hk3]

/-! ## What each placement primitive does, as an inversion -/

theorem add_to_last_inv (blocks : List Block) (g g2 : RowGroup) (i : Nat)
    (h : g.add_to_last_column_if_fits blocks i = some g2) :
    ∃ col, g.columns.getLast? = some col ∧
      col.height + (get_block blocks i).height ≤ g.height ∧
      g.width - col.width + max col.width (get_block blocks i).width ≤ g.table_width ∧
      g2 = { g with columns := g.columns.dropLast ++
        [{ width := max col.width (get_block blocks i).width,
           height := col.height + (get_block blocks i).height,
           blocks := col.blocks ++ [i] }] } := by
  simp only [RowGroup.add_to_last_column_if_fits] at h
  split at h
  · cases h
  next col hlast =>
    split at h
    · cases h
    next hht =>
      split at h
      · cases h
      next hwd =>
        obtain rfl := Option.some.inj h
        exact ⟨col, hlast, not_lt.mp hht, not_lt.mp hwd, rfl⟩

theorem add_new_column_if_fits_inv (blocks : List Block) (g g2 : RowGroup) (i : Nat)
    (h : g.add_new_column_if_fits blocks i = some g2) :
    g.width + (get_block blocks i).width ≤ g.table_width ∧
    g2 = g.add_new_column blocks i := by
  simp only [RowGroup.add_new_column_if_fits] at h
  split at h
  · cases h
  next hwd =>
    obtain rfl := Option.some.inj h
    exact ⟨not_lt.mp hwd, rfl⟩

/-! ## Well-formedness preservation, operation by operation -/

theorem width_columns (g : RowGroup) :
    g.width = (g.columns.map Column.width).sum := rfl

theorem add_new_column_WF (tw : Int) (blocks : List Block) (g : RowGroup) (i : Nat)
    (hg : GroupWF blocks tw g) (hi : i < blocks.length)
    (hh : (get_block blocks i).height ≤ g.height)
    (hw : g.width + (get_block blocks i).width ≤ tw) :
    GroupWF blocks tw (g.add_new_column blocks i) where
  tweq := hg.tweq
  cols := by
    intro c hc
    simp only [RowGroup.add_new_column, List.mem_append, List.mem_singleton] at hc
    cases hc with
    | inl hold => exact hg.cols c hold
    | inr hnew =>
      subst hnew
      exact {
        nonempty := by simp
        inbounds := by simpa using hi
        height_eq := by simp
        width_mem := ⟨i, by simp, rfl⟩
        width_ub := by simp
        height_le := hh }
  sumw := by
    simp only [width_columns, RowGroup.add_new_column]
    simpa [width_columns] using hw

theorem add_to_last_WF (tw : Int) (blocks : List Block) (g g2 : RowGroup) (i : Nat)
    (hg : GroupWF blocks tw g) (hi : i < blocks.length)
    (h : g.add_to_last_column_if_fits blocks i = some g2) :
    GroupWF blocks tw g2 := by
  obtain ⟨col, hlast, hht, hwd, rfl⟩ := add_to_last_inv blocks g g2 i h
  have hdec : g.columns.dropLast ++ [col] = g.columns :=
    List.dropLast_append_getLast? col hlast
  have hcolmem : col ∈ g.columns := by
    rw [← hdec]; simp
  have hcol := hg.cols col hcolmem
  have hsum : (g.columns.dropLast.map Column.width).sum + col.width = g.width := by
    rw [width_columns, ← hdec]
    simp
  refine { tweq := hg.tweq, cols := ?_, sumw := ?_ }
  · intro c hc
    simp only [List.mem_append, List.mem_singleton] at hc
    cases hc with
    | inl hold =>
      refine hg.cols c ?_
      rw [← hdec]
      exact List.mem_append_left _ hold
    | inr hnew =>
      subst hnew
      exact {
        nonempty := by simp
        inbounds := by
          intro j hj
          rcases List.mem_append.mp hj with hjold | hji
          · exact hcol.inbounds j hjold
          · rw [List.mem_singleton.mp hji]; exact hi
        height_eq := by
          simp only [List.map_append, List.sum_append]
          rw [← hcol.height_eq]
          simp
        width_mem := by
          rcases le_total col.width (get_block blocks i).width with hle | hle
          · refine ⟨i, by simp, ?_⟩
            show max col.width (get_block blocks i).width = (get_block blocks i).width
            exact max_eq_right hle
          · obtain ⟨j, hj, hjw⟩ := hcol.width_mem
            refine ⟨j, List.mem_append_left _ hj, ?_⟩
            show max col.width (get_block blocks i).width = (get_block blocks j).width
            rw [max_eq_left hle]
            exact hjw
        width_ub := by
          intro j hj
          rcases List.mem_append.mp hj with hjold | hji
          · exact le_trans (hcol.width_ub j hjold) (le_max_left _ _)
          · rw [List.mem_singleton.mp hji]
            exact le_max_right _ _
        height_le := hht }
  · rw [width_columns]
    simp only [List.map_append, List.sum_append, List.map_cons, List.map_nil,
      List.sum_cons, List.sum_nil]
    rw [hg.tweq] at hwd
    omega

theorem add_fixed_height_fields (blocks : List Block) (g g2 : RowGroup) (i : Nat)
    (h : g.add_fixed_height blocks i = some g2) :
    g2.height = g.height ∧ g2.table_width = g.table_width := by
  simp only [RowGroup.add_fixed_height] at h
  split at h
  · obtain rfl := Option.some.inj h
    exact ⟨rfl, rfl⟩
  · split at h
    next rg3 hsome =>
      obtain rfl := Option.some.inj h
      obtain ⟨col, -, -, -, rfl⟩ := add_to_last_inv blocks g rg3 i hsome
      exact ⟨rfl, rfl⟩
    next =>
      obtain ⟨-, rfl⟩ := add_new_column_if_fits_inv blocks g g2 i h
      exact ⟨rfl, rfl⟩

theorem add_fixed_height_WF (tw : Int) (blocks : List Block) (g g2 : RowGroup) (i : Nat)
    (hreg : RegistryOK tw blocks)
    (hg : GroupWF blocks tw g) (hi : i < blocks.length)
    (hh : (get_block blocks i).height ≤ g.height)
    (h : g.add_fixed_height blocks i = some g2) :
    GroupWF blocks tw g2 := by
  simp only [RowGroup.add_fixed_height] at h
  split at h
  next hce =>
    obtain rfl := Option.some.inj h
    refine add_new_column_WF tw blocks g i hg hi hh ?_
    have : g.columns = [] := List.isEmpty_iff.mp hce
    rw [width_columns, this]
    simpa using (RegistryOK_get tw blocks hreg i hi).2
  next =>
    split at h
    next rg3 hsome =>
      obtain rfl := Option.some.inj h
      exact add_to_last_WF tw blocks g _ i hg hi hsome
    next =>
      obtain ⟨hwd, rfl⟩ := add_new_column_if_fits_inv blocks g g2 i h
      rw [hg.tweq] at hwd
      exact add_new_column_WF tw blocks g i hg hi hh hwd

theorem foldlM_fixed_WF (tw : Int) (blocks : List Block)
    (hreg : RegistryOK tw blocks) :
    ∀ (l : List Nat) (t t2 : RowGroup),
    (∀ j ∈ l, j < blocks.length ∧ (get_block blocks j).height ≤ t.height) →
    GroupWF blocks tw t →
    l.foldlM (fun g j => g.add_fixed_height blocks j) t = some t2 →
    GroupWF blocks tw t2 ∧ t2.height = t.height ∧ t2.table_width = t.table_width := by
  intro l
  induction l with
  | nil =>
    intro t t2 hb hwf h
    obtain rfl := Option.some.inj h
    exact ⟨hwf, rfl, rfl⟩
  | cons j l ih =>
    intro t t2 hb hwf h
    rw [List.foldlM_cons] at h
    obtain ⟨t1, h1, h2⟩ := Option.bind_eq_some.mp h
    obtain ⟨hj, hjh⟩ := hb j (List.mem_cons_self j l)
    obtain ⟨ht1h, ht1w⟩ := add_fixed_height_fields blocks t t1 j h1
    have hwf1 : GroupWF blocks tw t1 :=
      add_fixed_height_WF tw blocks t t1 j hreg hwf hj hjh h1
    obtain ⟨hwf2, hh2, htw2⟩ := ih t1 t2
      (fun k hk => ⟨(hb k (List.mem_cons_of_mem j hk)).1,
        ht1h ▸ (hb k (List.mem_cons_of_mem j hk)).2⟩) hwf1 h2
    exact ⟨hwf2, hh2.trans ht1h, htw2.trans ht1w⟩

theorem GroupWF_new_block_added (tw : Int) (blocks blocks2 : List Block)
    (g : RowGroup) (i : Nat) (h : GroupWF blocks tw g) :
    GroupWF blocks tw (g.new_block_added blocks2 i) where
  tweq := by rw [new_block_added_table_width]; exact h.tweq
  cols := by
    intro c hc
    rw [new_block_added_columns] at hc
    rw [new_block_added_height]
    exact h.cols c hc
  sumw := by
    rw [width_columns, new_block_added_columns, ← width_columns]
    exact h.sumw

theorem FullCol_new_block_added (blocks2 : List Block) (g : RowGroup) (i : Nat)
    (h : FullCol g) : FullCol (g.new_block_added blocks2 i) := by
  unfold FullCol
  rw [new_block_added_columns, new_block_added_height]
  exact h

/-- The workhorse: `RowGroup::add` preserves geometric well-formedness
and the full-height-column property, across all three of its paths. -/
theorem add_WF (tw : Int) (blocks : List Block) (g g2 : RowGroup) (i : Nat)
    (htw : 0 ≤ tw) (hreg : RegistryOK tw blocks)
    (hg : GroupWF blocks tw g) (hfull : FullCol g) (hi : i < blocks.length)
    (h : g.add blocks i = some g2) :
    GroupWF blocks tw g2 ∧ FullCol g2 := by
  simp only [RowGroup.add] at h
  split at h
  next hce =>
    obtain rfl := Option.some.inj h
    have hcols : g.columns = [] := List.isEmpty_iff.mp hce
    have hbase : GroupWF blocks tw
        ({ g with height := (get_block blocks i).height } : RowGroup) :=
      { tweq := hg.tweq
        cols := by intro c hc; rw [show ({ g with height := (get_block blocks i).height } :
          RowGroup).columns = g.columns from rfl, hcols] at hc; cases hc
        sumw := by
          rw [width_columns, show ({ g with height := (get_block blocks i).height } :
            RowGroup).columns = g.columns from rfl, hcols]
          simpa using htw }
    have hw0 : ({ g with height := (get_block blocks i).height } : RowGroup).width +
        (get_block blocks i).width ≤ tw := by
      rw [width_columns, show ({ g with height := (get_block blocks i).height } :
        RowGroup).columns = g.columns from rfl, hcols]
      simpa using (RegistryOK_get tw blocks hreg i hi).2
    refine ⟨GroupWF_new_block_added tw blocks blocks _ i
      (add_new_column_WF tw blocks _ i hbase hi (le_refl _) hw0), ?_⟩
    refine FullCol_new_block_added blocks _ i ?_
    intro _
    refine ⟨⟨(get_block blocks i).width, (get_block blocks i).height, [i]⟩, ?_, rfl⟩
    simp [RowGroup.add_new_column, hcols]
  next hce =>
    split at h
    next hgrow =>
      split at h
      · cases h
      next temp hfold =>
        obtain rfl := Option.some.inj h
        have htemp0 : GroupWF blocks tw
            ({ table_width := g.table_width, height := (get_block blocks i).height,
               columns := [], keyid := -1 } : RowGroup) :=
          { tweq := hg.tweq
            cols := by intro c hc; cases hc
            sumw := by rw [width_columns]; simpa using htw }
        have hb : ∀ j ∈ g.blocks_in_order ++ [i], j < blocks.length ∧
            (get_block blocks j).height ≤
            ({ table_width := g.table_width, height := (get_block blocks i).height,
               columns := [], keyid := -1 } : RowGroup).height := by
          intro j hj
          rcases List.mem_append.mp hj with hjb | hji
          · obtain ⟨c, hc, hjc⟩ := (mem_bio g j).mp hjb
            have hcw := hg.cols c hc
            refine ⟨hcw.inbounds j hjc, ?_⟩
            have h1 := member_height_le tw blocks g.height c hreg hcw j hjc
            have h2 := hcw.height_le
            have h3 := le_of_lt hgrow
            show (get_block blocks j).height ≤ (get_block blocks i).height
            omega
          · rw [List.mem_singleton.mp hji]
            exact ⟨hi, le_refl _⟩
        obtain ⟨hwfT, hhT, -⟩ := foldlM_fixed_WF tw blocks hreg _ _ temp hb htemp0 hfold
        refine ⟨GroupWF_new_block_added tw blocks blocks temp i hwfT, ?_⟩
        refine FullCol_new_block_added blocks temp i ?_
        intro _
        have hbioT : temp.blocks_in_order = g.blocks_in_order ++ [i] := by
          have := foldlM_bio (fun g j => g.add_fixed_height blocks j)
            (fun g j g3 hg3 => add_fixed_height_bio g g3 blocks j hg3) _ _ temp hfold
          rw [this]
          simp [RowGroup.blocks_in_order]
        have hiT : i ∈ temp.blocks_in_order := by rw [hbioT]; simp
        obtain ⟨c, hc, hic⟩ := (mem_bio temp i).mp hiT
        have hcw := hwfT.cols c hc
        have h1 := member_height_le tw blocks temp.height c hreg hcw i hic
        have h2 := hcw.height_le
        refine ⟨c, hc, ?_⟩
        have h3 : temp.height = (get_block blocks i).height := hhT
        omega
    next hgrow =>
      have hh : (get_block blocks i).height ≤ g.height := not_lt.mp hgrow
      have hgne : g.columns ≠ [] := by
        intro hc
        exact hce (by simp [hc])
      split at h
      next rg3 hsome =>
        obtain rfl := Option.some.inj h
        refine ⟨GroupWF_new_block_added tw blocks blocks rg3 i
          (add_to_last_WF tw blocks g rg3 i hg hi hsome), ?_⟩
        refine FullCol_new_block_added blocks rg3 i ?_
        obtain ⟨col, hlast, hht, -, rfl⟩ := add_to_last_inv blocks g rg3 i hsome
        intro _
        obtain ⟨cstar, hcs, hcsh⟩ := hfull hgne
        have hdec : g.columns.dropLast ++ [col] = g.columns :=
          List.dropLast_append_getLast? col hlast
        rw [← hdec] at hcs
        rcases List.mem_append.mp hcs with hd | hcc
        · exact ⟨cstar, List.mem_append_left _ hd, hcsh⟩
        · exfalso
          have hceq : cstar = col := List.mem_singleton.mp hcc
          have hbp := (RegistryOK_get tw blocks hreg i hi).1.h_pos
          rw [hceq] at hcsh
          omega
      next =>
        split at h
        next rg3 hsome =>
          obtain rfl := Option.some.inj h
          obtain ⟨hwd, rfl⟩ := add_new_column_if_fits_inv blocks g rg3 i hsome
          rw [hg.tweq] at hwd
          refine ⟨GroupWF_new_block_added tw blocks blocks _ i
            (add_new_column_WF tw blocks g i hg hi hh hwd), ?_⟩
          refine FullCol_new_block_added blocks _ i ?_
          intro _
          obtain ⟨cstar, hcs, hcsh⟩ := hfull hgne
          refine ⟨cstar, ?_, hcsh⟩
          simp only [RowGroup.add_new_column, List.mem_append]
          exact Or.inl hcs
        next => cases h

/-- Replaying a block list through `add` from any well-formed group
keeps it well formed. -/
theorem foldlM_add_WF (tw : Int) (blocks : List Block)
    (htw : 0 ≤ tw) (hreg : RegistryOK tw blocks) :
    ∀ (l : List Nat) (t t2 : RowGroup),
    (∀ j ∈ l, j < blocks.length) →
    GroupWF blocks tw t → FullCol t →
    l.foldlM (fun g j => g.add blocks j) t = some t2 →
    GroupWF blocks tw t2 ∧ FullCol t2 := by
  intro l
  induction l with
  | nil =>
    intro t t2 hb hwf hfl h
    obtain rfl := Option.some.inj h
    exact ⟨hwf, hfl⟩
  | cons j l ih =>
    intro t t2 hb hwf hfl h
    rw [List.foldlM_cons] at h
    obtain ⟨t1, h1, h2⟩ := Option.bind_eq_some.mp h
    obtain ⟨hwf1, hfl1⟩ := add_WF tw blocks t t1 j htw hreg hwf hfl
      (hb j (List.mem_cons_self j l)) h1
    exact ih t1 t2 (fun k hk => hb k (List.mem_cons_of_mem j hk)) hwf1 hfl1 h2

/-! ## Locating the compacted block inside the current group -/

theorem getLastD_mem {α : Type} (l : List α) (d : α) (h : l ≠ []) :
    l.getLastD d ∈ l := by
  rw [List.getLastD_eq_getLast?, List.getLast?_eq_getLast l h]
  exact List.getLast_mem h

theorem last_single_inv (g : RowGroup) (hsingle : g.last_column_has_single_block = true) :
    ∃ col, g.columns.getLast? = some col ∧ col.blocks.length = 1 ∧
      g.last_column = col := by
  unfold RowGroup.last_column_has_single_block at hsingle
  split at hsingle
  · cases hsingle
  next col hlast =>
    refine ⟨col, hlast, by simpa using hsingle, ?_⟩
    unfold RowGroup.last_column
    rw [List.getLastD_eq_getLast?, hlast]
    rfl

theorem last_block_index_mem_bio (g : RowGroup)
    (hsingle : g.last_column_has_single_block = true) :
    g.last_block_index ∈ g.blocks_in_order := by
  obtain ⟨col, hlast, hlen, hlc⟩ := last_single_inv g hsingle
  have hcolmem : col ∈ g.columns := List.mem_of_getLast?_eq_some hlast
  have hbne : col.blocks ≠ [] := by
    intro hc
    rw [hc] at hlen
    cases hlen
  have hidx : g.last_block_index ∈ col.blocks := by
    unfold RowGroup.last_block_index
    have : g.columns.getLastD default = col := by
      rw [List.getLastD_eq_getLast?, hlast]
      rfl
    rw [this]
    exact getLastD_mem col.blocks 0 hbne
  exact mem_bio_of_col g col _ hcolmem hidx

/-- The successful compaction fallback rebuilds the group by replaying
all current blocks, then the new one, through `add` over the mutated
registry. -/
theorem try_compact_success_rebuild (table_width : Int) (st : LayoutState) (i : Nat)
    (bl2 : List Block) (g2 : RowGroup)
    (h : try_compact_last_keyid_to_fit table_width st i = (true, bl2, g2)) :
    ∃ rebuilt,
      st.current.blocks_in_order.foldlM (fun g j => g.add bl2 j)
        ({ table_width := table_width, height := 0, columns := [], keyid := -1 } :
          RowGroup) = some rebuilt ∧
      rebuilt.add bl2 i = some g2 := by
  simp only [try_compact_last_keyid_to_fit] at h
  split at h
  next => simp at h
  next =>
    split at h
    next => simp at h
    next =>
      split at h
      next => simp at h
      next =>
        split at h
        next => simp at h
        next =>
          split at h
          next => simp at h
          next =>
            split at h
            next => simp at h
            next rebuilt hfold =>
              split at h
              next => simp at h
              next rebuilt2 hadd =>
                simp only [Prod.mk.injEq] at h
                obtain ⟨-, hbl, hg⟩ := h
                subst hbl
                subst hg
                exact ⟨rebuilt, hfold, hadd⟩

/-! ## The packing-loop state invariant is preserved -/

theorem partition_facts (st : LayoutState)
    (hpart : (st.groups.map RowGroup.blocks_in_order).flatten ++
      st.current.blocks_in_order = List.range st.blocks.length) :
    (∀ j ∈ st.current.blocks_in_order, j < st.blocks.length) ∧
    (∀ g ∈ st.groups, ∀ j ∈ g.blocks_in_order,
      j < st.blocks.length ∧ j ∉ st.current.blocks_in_order) := by
  have hnd : ((st.groups.map RowGroup.blocks_in_order).flatten ++
      st.current.blocks_in_order).Nodup := by
    rw [hpart]; exact List.nodup_range _
  have hdisj := List.disjoint_of_nodup_append hnd
  constructor
  · intro j hj
    have : j ∈ List.range st.blocks.length := by
      rw [← hpart]
      exact List.mem_append_right _ hj
    exact List.mem_range.mp this
  · intro g hg j hj
    have hjf : j ∈ (st.groups.map RowGroup.blocks_in_order).flatten :=
      List.mem_flatten.mpr ⟨g.blocks_in_order, List.mem_map_of_mem _ hg, hj⟩
    constructor
    · have : j ∈ List.range st.blocks.length := by
        rw [← hpart]
        exact List.mem_append_left _ hjf
      exact List.mem_range.mp this
    · exact hdisj hjf

/-- The compacted key-identifier block is still well shaped and fits
the table. -/
theorem mutated_keyid_OK (tw : Int) (bold : Block)
    (hok : BlockOK bold) (hle : bold.width ≤ tw)
    (hkey : bold.key = "keyid") (hnc : bold.keyid_compact = false) :
    BlockOK { bold with keyid_compact := true, content_width := bold.content_width - 8, width := bold.width - 8, height := 3 } ∧
    ({ bold with keyid_compact := true, content_width := bold.content_width - 8, width := bold.width - 8, height := 3 } : Block).width ≤ tw := by
  obtain ⟨hlen, -, hshape⟩ := hok.keyid_shape (Or.inl hkey)
  obtain ⟨hcw, -⟩ := hshape hnc
  have hwe := hok.width_eq
  have hml := hok.ml_nonneg
  have hmr := hok.mr_nonneg
  refine ⟨?_, by simpa using by omega⟩
  exact {
    ml_nonneg := hml
    mr_nonneg := hmr
    width_eq := by simpa using by omega
    h_pos := by norm_num
    cw_nonneg := by simpa using by omega
    keyid_shape := fun _ => ⟨hlen, fun _ => by constructor <;> simp [hcw], fun hc => by cases hc⟩
    plain_shape := fun hn => absurd (Or.inl hkey) hn }

/-- One packing-loop iteration preserves the full state invariant. -/
theorem process_block_WF (tw : Int) (st st2 : LayoutState) (b : Block)
    (htw : 0 ≤ tw) (hok : BlockOK b) (hble : b.width ≤ tw)
    (hwf : StateWF tw st)
    (h : process_block tw st b = .ok st2) : StateWF tw st2 := by
  obtain ⟨hreg, hgroups, hcur, hfullc, hpart⟩ := hwf
  obtain ⟨hcur_lt, hgr_facts⟩ := partition_facts st hpart
  have hreg2 : RegistryOK tw (st.blocks ++ [b]) := by
    intro x hx
    rcases List.mem_append.mp hx with hxo | hxb
    · exact hreg x hxo
    · rw [List.mem_singleton.mp hxb]
      exact ⟨hok, hble⟩
  have hcur2 : GroupWF (st.blocks ++ [b]) tw st.current :=
    GroupWF_append st.blocks b tw st.current hcur
  have hgroups2 : ∀ g ∈ st.groups, GroupWF (st.blocks ++ [b]) tw g :=
    fun g hg => GroupWF_append st.blocks b tw g (hgroups g hg).1
  have hbi_lt : st.blocks.length < (st.blocks ++ [b]).length := by simp
  simp only [process_block] at h
  split at h
  next g hadd =>
    obtain hst := Except.ok.inj h
    subst hst
    obtain ⟨hwfg, hfullg⟩ := add_WF tw (st.blocks ++ [b]) st.current g
      st.blocks.length htw hreg2 hcur2 hfullc hbi_lt hadd
    refine ⟨hreg2, ?_, hwfg, hfullg, ?_⟩
    · exact fun g2 hg2 => ⟨hgroups2 g2 hg2, (hgroups g2 hg2).2⟩
    · rw [add_bio st.current g _ _ hadd]
      simp only [List.length_append, List.length_singleton]
      rw [List.range_succ, ← hpart]
      simp
  next hfail =>
    split at h
    next blocks3 cur3 heq =>
      obtain hst := Except.ok.inj h
      subst hst
      obtain ⟨-, hsingle, hkey, hnc, -, hbl⟩ := try_compact_success_spec tw _ _ _ _ heq
      obtain ⟨rebuilt, hfold, hadd2⟩ := try_compact_success_rebuild tw _ _ _ _ heq
      have hk_mem : st.current.last_block_index ∈ st.current.blocks_in_order := by
        have := last_block_index_mem_bio st.current (by simpa using hsingle)
        simpa using this
      have hk_lt : st.current.last_block_index < st.blocks.length :=
        hcur_lt _ hk_mem
      have hk_lt2 : st.current.last_block_index < (st.blocks ++ [b]).length := by
        simp only [List.length_append, List.length_singleton]
        omega
      have hbold := RegistryOK_get tw (st.blocks ++ [b]) hreg2 _ hk_lt2
      have hmut := mutated_keyid_OK tw _ hbold.1 hbold.2 (by simpa using hkey)
        (by simpa using hnc)
      have hreg3 : RegistryOK tw blocks3 := by
        intro x hx
        rw [hbl] at hx
        rcases List.mem_or_eq_of_mem_set hx with hxo | hxe
        · exact hreg2 x hxo
        · rw [hxe]
          exact ⟨hmut.1, hmut.2⟩
      have hlen3 : blocks3.length = (st.blocks ++ [b]).length := by
        rw [hbl]
        simp
      have hgroups3 : ∀ g ∈ st.groups, GroupWF blocks3 tw g := by
        intro g hg
        rw [hbl]
        refine GroupWF_set_ne _ _ _ tw g ?_ (hgroups2 g hg)
        intro j hj
        intro hc
        exact (hgr_facts g hg j hj).2 (hc ▸ hk_mem)
      have hfresh : GroupWF blocks3 tw
          ({ table_width := tw, height := 0, columns := [], keyid := -1 } : RowGroup) :=
        { tweq := rfl
          cols := by intro c hc; cases hc
          sumw := by rw [width_columns]; simpa using htw }
      have hbnd : ∀ j ∈ st.current.blocks_in_order, j < blocks3.length := by
        intro j hj
        rw [hlen3]
        have := hcur_lt j hj
        simp only [List.length_append, List.length_singleton]
        omega
      obtain ⟨hwfR, hfullR⟩ := foldlM_add_WF tw blocks3 htw hreg3 _ _ rebuilt
        (by simpa using hbnd) hfresh (fun hc => absurd hc (by simp)) (by simpa using hfold)
      obtain ⟨hwfC, hfullC⟩ := add_WF tw blocks3 rebuilt cur3 st.blocks.length htw hreg3
        hwfR hfullR (by rw [hlen3]; simp) hadd2
      refine ⟨hreg3, ?_, hwfC, hfullC, ?_⟩
      · exact fun g2 hg2 => ⟨hgroups3 g2 hg2, (hgroups g2 hg2).2⟩
      · rw [try_compact_bio tw _ _ _ _ heq]
        rw [hlen3]
        simp only [List.length_append, List.length_singleton]
        rw [List.range_succ, ← hpart]
        simp
    next blocks3 cur3 heq =>
      obtain ⟨hbl3, hcur3⟩ := try_compact_failure_spec tw _ _ _ _ heq
      split at h
      next g hadd2 =>
        obtain hst := Except.ok.inj h
        subst hst
        subst hbl3
        subst hcur3
        have hfreshWF : GroupWF (st.blocks ++ [b]) tw
            ({ table_width := tw, height := 0, columns := [], keyid := -1 } : RowGroup) :=
          { tweq := rfl
            cols := by intro c hc; cases hc
            sumw := by rw [width_columns]; simpa using htw }
        obtain ⟨hwfg, hfullg⟩ := add_WF tw (st.blocks ++ [b]) _ g st.blocks.length htw
          hreg2 hfreshWF (fun hc => absurd hc (by simp)) hbi_lt hadd2
        have hgbio : g.blocks_in_order = [st.blocks.length] := by
          rw [add_bio _ g _ _ hadd2]
          rfl
        refine ⟨hreg2, ?_, hwfg, hfullg, ?_⟩
        · intro g2 hg2
          by_cases hce : st.current.columns.isEmpty
          · rw [if_pos hce] at hg2
            simp only [List.append_nil] at hg2
            exact ⟨hgroups2 g2 hg2, (hgroups g2 hg2).2⟩
          · rw [if_neg hce] at hg2
            rcases List.mem_append.mp hg2 with hgo | hgc
            · exact ⟨hgroups2 g2 hgo, (hgroups g2 hgo).2⟩
            · rw [List.mem_singleton.mp hgc]
              refine ⟨hcur2, hfullc, ?_⟩
              intro hc
              exact hce (by simp [show st.current.columns = [] from hc])
        · rw [hgbio]
          by_cases hce : st.current.columns.isEmpty
          · rw [if_pos hce]
            rw [bio_empty st.current (List.isEmpty_iff.mp hce)] at hpart
            simp only [List.append_nil] at hpart
            simp only [List.length_append, List.length_singleton]
            rw [List.range_succ, ← hpart]
          · rw [if_neg hce]
            simp only [List.length_append, List.length_singleton]
            rw [List.range_succ, ← hpart]
            simp
      next => cases h

theorem StateWF_init (tw : Int) (htw : 0 ≤ tw) : StateWF tw (init_state tw) := by
  refine ⟨?_, ?_, ?_, ?_, ?_⟩
  · intro x hx
    cases hx
  · intro g hg
    cases hg
  · exact
      { tweq := rfl
        cols := by intro c hc; cases hc
        sumw := by rw [width_columns]; simpa using htw }
  · intro hc
    exact absurd rfl hc
  · rfl

theorem layout_entries_WF (tw : Int) (lbl : String) (htw : 0 ≤ tw) :
    ∀ (entries : List Entry) (st st2 : LayoutState),
    (∀ e ∈ entries, ValidEntry e) →
    StateWF tw st →
    entries.foldlM
      (fun st e => do
        let b ← mk_block tw lbl e
        process_block tw st b) st = .ok st2 →
    StateWF tw st2 := by
  intro entries
  induction entries with
  | nil =>
    intro st st2 hv hwf h
    obtain rfl := Except.ok.inj h
    exact hwf
  | cons e rest ih =>
    intro st st2 hv hwf h
    rw [List.foldlM_cons] at h
    obtain ⟨st1, h1, h2⟩ := bind_eq_ok _ _ _ h
    obtain ⟨b, hb, hp⟩ := bind_eq_ok _ _ _ h1
    obtain ⟨hok, hble⟩ := mk_block_valid tw lbl e b (hv e (List.mem_cons_self e rest)) hb
    have hwf1 : StateWF tw st1 := process_block_WF tw st st1 b htw hok hble hwf hp
    exact ih st1 st2 (fun e2 he2 => hv e2 (List.mem_cons_of_mem e he2)) hwf1 h2

/-! ## C1: the geometric invariants of every finalized RowGroup -/

/-- C1 (confirmed): for every valid input (nonnegative table width,
margins absent or nonnegative integers), every RowGroup of the
finalized layout satisfies both geometric invariants: the sum of its
column widths is at most the table width, and every column's height —
which equals the sum of the heights of the blocks stacked in it — is at
most the RowGroup's height.  The proof threads these invariants through
every layout operation (first placement, append to last column, new
column, height-growth replay, and compaction rebuild; see `add_WF`,
`foldlM_fixed_WF`, `foldlM_add_WF` and `process_block_WF`). -/
theorem layout_invariants_hold (table_width : Int) (entries : List Entry)
    (blocks : List Block) (groups : List RowGroup)
    (htw : 0 ≤ table_width)
    (hval : ∀ e ∈ entries, ValidEntry e)
    (h : layout_sheet table_width entries = .ok (blocks, groups)) :
    ∀ g ∈ groups,
      (g.columns.map Column.width).sum ≤ table_width ∧
      ∀ c ∈ g.columns,
        c.height = (c.blocks.map (fun i => (get_block blocks i).height)).sum ∧
        c.height ≤ g.height := by
  simp only [layout_sheet] at h
  obtain ⟨st, hst, hout⟩ := bind_eq_ok _ _ _ h
  obtain hpair := Except.ok.inj hout
  simp only [Prod.mk.injEq] at hpair
  obtain ⟨hbl, hgr⟩ := hpair
  have hwf : StateWF table_width st :=
    layout_entries_WF table_width "sheet" htw entries (init_state table_width) st hval
      (StateWF_init table_width htw) hst
  obtain ⟨-, hgroups, hcur, -, -⟩ := hwf
  intro g hg
  have hwfg : GroupWF st.blocks table_width g := by
    rw [← hgr] at hg
    rcases List.mem_append.mp hg with hgo | hgc
    · exact (hgroups g hgo).1
    · split at hgc
      · cases hgc
      · rw [List.mem_singleton.mp hgc]
        exact hcur
  subst hbl
  refine ⟨by rw [← width_columns]; exact hwfg.sumw, ?_⟩
  intro c hc
  exact ⟨(hwfg.cols c hc).height_eq, (hwfg.cols c hc).height_le⟩

theorem ValidMargin_none : ValidMargin none := fun v hv => by cases hv

theorem ValidMargin_jint (n : Int) (hn : 0 ≤ n) : ValidMargin (some (.jint n)) :=
  fun v hv => ⟨n, (Option.some.inj hv).symm, hn⟩

/-- Witness for C1 at the concrete two-entry sheet. -/
theorem layout_invariants_witness :
    (c6_group.columns.map Column.width).sum ≤ 40 ∧
    (c6_col0.height = (c6_col0.blocks.map
      (fun i => (get_block c6_result.1 i).height)).sum ∧ c6_col0.height ≤ c6_group.height) ∧
    (c6_col1.height = (c6_col1.blocks.map
      (fun i => (get_block c6_result.1 i).height)).sum ∧ c6_col1.height ≤ c6_group.height) := by
  have H := layout_invariants_hold 40 c6_entries c6_result.1 c6_result.2 (by norm_num)
    (by
      intro e he
      simp only [c6_entries, List.mem_cons, List.not_mem_nil, or_false] at he
      rcases he with rfl | rfl
      · exact ⟨ValidMargin_jint 2 (by norm_num), ValidMargin_jint 2 (by norm_num)⟩
      · exact ⟨ValidMargin_none, ValidMargin_none⟩)
    (by rfl)
  have Hg := H c6_group (by decide)
  exact ⟨Hg.1, Hg.2 c6_col0 (by decide), Hg.2 c6_col1 (by decide)⟩

/-! ## A full-width block always sits alone in its group -/

theorem sum_ones_nil (l : List Int) (hpos : ∀ x ∈ l, 1 ≤ x) (hle : l.sum ≤ 0) :
    l = [] := by
  cases l with
  | nil => rfl
  | cons x t =>
    exfalso
    have h1 : 1 ≤ x := hpos x (List.mem_cons_self x t)
    have h2 : 0 ≤ t.sum := List.sum_nonneg fun y hy => by
      have := hpos y (List.mem_cons_of_mem x hy)
      omega
    simp only [List.sum_cons] at hle
    omega

theorem col_width_pos (tw : Int) (blocks : List Block) (H : Int) (c : Column)
    (hpos : RegistryPos blocks) (hc : ColWF blocks H c) : 1 ≤ c.width := by
  obtain ⟨j, hj, hw⟩ := hc.width_mem
  rw [hw]
  exact hpos _ (get_block_mem blocks j (hc.inbounds j hj))

theorem col_height_pos (tw : Int) (blocks : List Block) (H : Int) (c : Column)
    (hreg : RegistryOK tw blocks) (hc : ColWF blocks H c) : 1 ≤ c.height := by
  obtain ⟨j, hj⟩ := List.exists_mem_of_ne_nil c.blocks hc.nonempty
  have h1 := member_height_le tw blocks H c hreg hc j hj
  have h2 := (RegistryOK_get tw blocks hreg j (hc.inbounds j hj)).1.h_pos
  omega

/-- In a well-formed group of positive-width columns, a column at
least as wide as the whole table is the only column. -/
theorem single_column_of_full (tw : Int) (blocks : List Block) (g : RowGroup)
    (c : Column) (hpos : RegistryPos blocks) (hg : GroupWF blocks tw g)
    (hc : c ∈ g.columns) (hcw : tw ≤ c.width) : g.columns = [c] := by
  obtain ⟨l1, l2, hsplit⟩ := List.append_of_mem hc
  have hw1 : ∀ c2 ∈ l1, 1 ≤ c2.width := fun c2 hc2 =>
    col_width_pos tw blocks g.height c2 hpos
      (hg.cols c2 (by rw [hsplit]; exact List.mem_append_left _ hc2))
  have hw2 : ∀ c2 ∈ l2, 1 ≤ c2.width := fun c2 hc2 =>
    col_width_pos tw blocks g.height c2 hpos
      (hg.cols c2 (by rw [hsplit]; exact List.mem_append_right _ (List.mem_cons_of_mem c hc2)))
  have hsum := hg.sumw
  rw [width_columns, hsplit] at hsum
  simp only [List.map_append, List.sum_append, List.map_cons, List.sum_cons] at hsum
  have h1 : (l1.map Column.width).sum ≥ 0 := List.sum_nonneg fun x hx => by
    obtain ⟨c2, hc2, rfl⟩ := List.mem_map.mp hx
    have := hw1 c2 hc2
    omega
  have h2 : (l2.map Column.width).sum ≥ 0 := List.sum_nonneg fun x hx => by
    obtain ⟨c2, hc2, rfl⟩ := List.mem_map.mp hx
    have := hw2 c2 hc2
    omega
  have hn1 : l1.map Column.width = [] :=
    sum_ones_nil _ (fun x hx => by
      obtain ⟨c2, hc2, rfl⟩ := List.mem_map.mp hx
      exact hw1 c2 hc2) (by omega)
  have hn2 : l2.map Column.width = [] :=
    sum_ones_nil _ (fun x hx => by
      obtain ⟨c2, hc2, rfl⟩ := List.mem_map.mp hx
      exact hw2 c2 hc2) (by omega)
  rw [hsplit, List.map_eq_nil_iff.mp hn1, List.map_eq_nil_iff.mp hn2]
  simp

theorem bio_single (g : RowGroup) (c : Column) (h : g.columns = [c]) :
    g.blocks_in_order = c.blocks := by
  unfold RowGroup.blocks_in_order
  rw [h]
  simp

theorem AloneFW_congr (tw : Int) (blocks blocks2 : List Block) (g : RowGroup)
    (hsame : ∀ j ∈ g.blocks_in_order, get_block blocks2 j = get_block blocks j)
    (h : AloneFW tw blocks g) : AloneFW tw blocks2 g := by
  intro c hc j hj hw
  refine h c hc j hj ?_
  rw [← hsame j (mem_bio_of_col g c j hc hj)]
  exact hw

theorem AloneFW_new_block_added (tw : Int) (blocks blocks2 : List Block)
    (g : RowGroup) (i : Nat) (h : AloneFW tw blocks g) :
    AloneFW tw blocks (g.new_block_added blocks2 i) := by
  intro c hc j hj hw
  rw [new_block_added_columns] at hc
  rw [new_block_added_columns]
  exact h c hc j hj hw

/-- The alone property survives `RowGroup::add` (given positive block
widths everywhere). -/
theorem add_alone (tw : Int) (blocks : List Block) (g g2 : RowGroup) (i : Nat)
    (htw : 0 ≤ tw) (hpos : RegistryPos blocks) (hreg : RegistryOK tw blocks)
    (hg : GroupWF blocks tw g) (hfull : FullCol g) (halone : AloneFW tw blocks g)
    (hi : i < blocks.length)
    (h : g.add blocks i = some g2) : AloneFW tw blocks g2 := by
  have hipos : 1 ≤ (get_block blocks i).height :=
    (RegistryOK_get tw blocks hreg i hi).1.h_pos
  have hiwpos : 1 ≤ (get_block blocks i).width :=
    hpos _ (get_block_mem blocks i hi)
  simp only [RowGroup.add] at h
  split at h
  next hce =>
    obtain rfl := Option.some.inj h
    refine AloneFW_new_block_added tw blocks blocks _ i ?_
    have hcols : g.columns = [] := List.isEmpty_iff.mp hce
    intro c hc j hj hw
    simp only [RowGroup.add_new_column, hcols, List.nil_append,
      List.mem_singleton] at hc
    subst hc
    simp only [List.mem_singleton] at hj
    subst hj
    exact ⟨by simp [RowGroup.add_new_column, hcols], rfl⟩
  next hce =>
    split at h
    next hgrow =>
      split at h
      · cases h
      next temp hfold =>
        obtain rfl := Option.some.inj h
        refine AloneFW_new_block_added tw blocks blocks temp i ?_
        have hb : ∀ j ∈ g.blocks_in_order ++ [i], j < blocks.length ∧
            (get_block blocks j).height ≤
            ({ table_width := g.table_width, height := (get_block blocks i).height,
               columns := [], keyid := -1 } : RowGroup).height := by
          intro j hj
          rcases List.mem_append.mp hj with hjb | hji
          · obtain ⟨c, hc, hjc⟩ := (mem_bio g j).mp hjb
            have hcw := hg.cols c hc
            refine ⟨hcw.inbounds j hjc, ?_⟩
            have h1 := member_height_le tw blocks g.height c hreg hcw j hjc
            have h2 := hcw.height_le
            have h3 := le_of_lt hgrow
            show (get_block blocks j).height ≤ (get_block blocks i).height
            omega
          · rw [List.mem_singleton.mp hji]
            exact ⟨hi, le_refl _⟩
        have htemp0 : GroupWF blocks tw
            ({ table_width := g.table_width, height := (get_block blocks i).height,
               columns := [], keyid := -1 } : RowGroup) :=
          { tweq := hg.tweq
            cols := by intro c hc; cases hc
            sumw := by rw [width_columns]; simpa using htw }
        obtain ⟨hwfT, hhT, -⟩ := foldlM_fixed_WF tw blocks hreg _ _ temp hb htemp0 hfold
        have hbioT : temp.blocks_in_order = g.blocks_in_order ++ [i] := by
          have := foldlM_bio (fun g j => g.add_fixed_height blocks j)
            (fun g j g3 hg3 => add_fixed_height_bio g g3 blocks j hg3) _ _ temp hfold
          rw [this]
          simp [RowGroup.blocks_in_order]
        intro c hc j hj hw
        have hjT : j ∈ temp.blocks_in_order := mem_bio_of_col temp c j hc hj
        have hcwf := hwfT.cols c hc
        have hcw : tw ≤ c.width := hw ▸ hcwf.width_ub j hj
        have hsingle := single_column_of_full tw blocks temp c hpos hwfT hc hcw
        have hcb : c.blocks = g.blocks_in_order ++ [i] := by
          rw [← bio_single temp c hsingle, hbioT]
        have hsumh : c.height =
            ((g.blocks_in_order ++ [i]).map
              (fun k => (get_block blocks k).height)).sum := by
          rw [hcwf.height_eq, hcb]
        have hhle : c.height ≤ (get_block blocks i).height := by
          have := hcwf.height_le
          rw [hhT] at this
          exact this
        have hgnil : g.blocks_in_order = [] := by
          rw [List.map_append] at hsumh
          simp only [List.map_cons, List.map_nil, List.sum_append, List.sum_cons,
            List.sum_nil] at hsumh
          have hmap : (g.blocks_in_order.map (fun k => (get_block blocks k).height)) = [] := by
            refine sum_ones_nil _ ?_ ?_
            · intro x hx
              obtain ⟨k, hk, rfl⟩ := List.mem_map.mp hx
              exact (RegistryOK_get tw blocks hreg k (hb k (List.mem_append_left _ hk)).1).1.h_pos
            · omega
          exact List.map_eq_nil_iff.mp hmap
        rw [hgnil, List.nil_append] at hcb
        rw [hcb] at hj
        obtain rfl := List.mem_singleton.mp hj
        exact ⟨hsingle, hcb⟩
    next hgrow =>
      have hgne : g.columns ≠ [] := fun hc => hce (by simp [hc])
      split at h
      next rg3 hsome =>
        obtain rfl := Option.some.inj h
        refine AloneFW_new_block_added tw blocks blocks rg3 i ?_
        obtain ⟨col, hlast, hht, hwd, rfl⟩ := add_to_last_inv blocks g rg3 i hsome
        have hdec : g.columns.dropLast ++ [col] = g.columns :=
          List.dropLast_append_getLast? col hlast
        have hcolmem : col ∈ g.columns := List.mem_of_getLast?_eq_some hlast
        have hcolwf := hg.cols col hcolmem
        intro c hc j hj hw
        exfalso
        rcases List.mem_append.mp hc with hcd | hcn
        · have hcg : c ∈ g.columns := by
            rw [← hdec]
            exact List.mem_append_left _ hcd
          obtain ⟨hcols1, -⟩ := halone c hcg j hj hw
          rw [hcols1] at hcd
          simp at hcd
        · obtain rfl := List.mem_singleton.mp hcn
          rcases List.mem_append.mp hj with hjo | hji
          · obtain ⟨hcols1, hblk1⟩ := halone col hcolmem j hjo hw
            obtain ⟨cst, hcst, hcsth⟩ := hfull hgne
            rw [hcols1] at hcst
            obtain rfl := List.mem_singleton.mp hcst
            omega
          · obtain rfl := List.mem_singleton.mp hji
            have hwc : (get_block blocks j).width = tw := hw
            have htww : g.table_width = tw := hg.tweq
            have hmax : (tw : Int) ≤ max col.width (get_block blocks j).width := by
              rw [hwc] at *
              exact le_max_right _ _
            have hsumle : g.width ≤ col.width := by
              rw [htww] at hwd
              omega
            have hdecw : (g.columns.dropLast.map Column.width).sum + col.width = g.width := by
              rw [width_columns, ← hdec]
              simp
            have hdpos : ∀ c2 ∈ g.columns.dropLast, 1 ≤ c2.width := by
              intro c2 hc2
              have hmem : c2 ∈ g.columns := by
                rw [← hdec]
                exact List.mem_append_left _ hc2
              exact col_width_pos tw blocks g.height c2 hpos (hg.cols c2 hmem)
            have hdnil : g.columns.dropLast.map Column.width = [] := by
              refine sum_ones_nil _ ?_ ?_
              · intro x hx
                obtain ⟨c2, hc2, rfl⟩ := List.mem_map.mp hx
                exact hdpos c2 hc2
              · omega
            have hcols1 : g.columns = [col] := by
              rw [← hdec, List.map_eq_nil_iff.mp hdnil]
              rfl
            obtain ⟨cst, hcst, hcsth⟩ := hfull hgne
            rw [hcols1] at hcst
            obtain rfl := List.mem_singleton.mp hcst
            omega
      next =>
        split at h
        next rg3 hsome =>
          obtain rfl := Option.some.inj h
          refine AloneFW_new_block_added tw blocks blocks rg3 i ?_
          obtain ⟨hwd, rfl⟩ := add_new_column_if_fits_inv blocks g rg3 i hsome
          rw [hg.tweq] at hwd
          intro c hc j hj hw
          exfalso
          simp only [RowGroup.add_new_column, List.mem_append, List.mem_singleton] at hc
          rcases hc with hco | hcn
          · obtain ⟨hcols1, hblk1⟩ := halone c hco j hj hw
            have hcwid : c.width = tw := by
              obtain ⟨m, hm, hmw⟩ := (hg.cols c hco).width_mem
              rw [hblk1] at hm
              obtain rfl := List.mem_singleton.mp hm
              rw [hmw, hw]
            have hgw : g.width = tw := by
              rw [width_columns, hcols1]
              simp [hcwid]
            omega
          · subst hcn
            simp only [List.mem_singleton] at hj
            subst hj
            have hgwpos : 1 ≤ g.width := by
              obtain ⟨c1, hc1⟩ := List.exists_mem_of_ne_nil g.columns hgne
              obtain ⟨l1, l2, hsplit⟩ := List.append_of_mem hc1
              have hall : ∀ c2 ∈ g.columns, 1 ≤ c2.width := fun c2 hc2 =>
                col_width_pos tw blocks g.height c2 hpos (hg.cols c2 hc2)
              have h0 : ∀ x ∈ g.columns.map Column.width, 0 ≤ x := by
                intro x hx
                obtain ⟨c2, hc2, rfl⟩ := List.mem_map.mp hx
                have := hall c2 hc2
                omega
              have hone : (1 : Int) ≤ c1.width := hall c1 hc1
              have hmem : c1.width ∈ g.columns.map Column.width :=
                List.mem_map_of_mem _ hc1
              have := List.single_le_sum h0 _ hmem
              rw [width_columns]
              omega
            rw [hw] at hwd
            omega
        next => cases h

/-- Replaying through `add` preserves all four group invariants. -/
theorem foldlM_add_alone (tw : Int) (blocks : List Block)
    (htw : 0 ≤ tw) (hpos : RegistryPos blocks) (hreg : RegistryOK tw blocks) :
    ∀ (l : List Nat) (t t2 : RowGroup),
    (∀ j ∈ l, j < blocks.length) →
    GroupWF blocks tw t → FullCol t → AloneFW tw blocks t →
    l.foldlM (fun g j => g.add blocks j) t = some t2 →
    AloneFW tw blocks t2 := by
  intro l
  induction l with
  | nil =>
    intro t t2 hb hwf hfl hal h
    obtain rfl := Option.some.inj h
    exact hal
  | cons j l ih =>
    intro t t2 hb hwf hfl hal h
    rw [List.foldlM_cons] at h
    obtain ⟨t1, h1, h2⟩ := Option.bind_eq_some.mp h
    have hj := hb j (List.mem_cons_self j l)
    obtain ⟨hwf1, hfl1⟩ := add_WF tw blocks t t1 j htw hreg hwf hfl hj h1
    have hal1 := add_alone tw blocks t t1 j htw hpos hreg hwf hfl hal hj h1
    exact ih t1 t2 (fun k hk => hb k (List.mem_cons_of_mem j hk)) hwf1 hfl1 hal1 h2

theorem data_width_pos (d : String) (hd : d ≠ "") : 1 ≤ data_width d := by
  unfold data_width
  split
  · norm_num
  · split
    · norm_num
    · have hne : d.data ≠ [] := by
        intro hc
        apply hd
        cases d with
        | mk l => rw [show l = [] from hc]
      have hlp : 0 < d.length := by
        rw [← String.length_data]
        exact List.length_pos.mpr hne
      omega

/-- A successfully constructed block from a valid entry with nonempty
data has positive total width. -/
theorem mk_block_pos (tw : Int) (lbl : String) (e : Entry) (b : Block)
    (hv : ValidEntry e) (hd : e.data ≠ "") (h : mk_block tw lbl e = .ok b) :
    1 ≤ b.width := by
  obtain ⟨ml, mr, hex, hml, hmr, hhex, hb, -⟩ := mk_block_ok_inv tw lbl e b h
  have hml0 : 0 ≤ ml := parse_margin_valid _ _ ml hv.1 hml
  have hmr0 : 0 ≤ mr := parse_margin_valid _ _ mr hv.2 hmr
  subst hb
  show (if e.key = "keyid" then (18 : Int) else if e.key = "keyid3" then 10
    else data_width e.data) + ml + mr ≥ 1
  have := data_width_pos e.data hd
  split
  · omega
  · split
    · omega
    · omega

theorem AloneFW_append (tw : Int) (blocks : List Block) (b : Block) (g : RowGroup)
    (hg : GroupWF blocks tw g) (h : AloneFW tw blocks g) :
    AloneFW tw (blocks ++ [b]) g := by
  refine AloneFW_congr tw blocks (blocks ++ [b]) g ?_ h
  intro j hj
  obtain ⟨c, hc, hjc⟩ := (mem_bio g j).mp hj
  exact get_block_append_lt blocks [b] j ((hg.cols c hc).inbounds j hjc)

theorem AloneFW_set_ne (tw : Int) (blocks : List Block) (k : Nat) (bnew : Block)
    (g : RowGroup) (hk : ∀ j ∈ g.blocks_in_order, j ≠ k)
    (h : AloneFW tw blocks g) : AloneFW tw (blocks.set k bnew) g := by
  refine AloneFW_congr tw blocks (blocks.set k bnew) g ?_ h
  intro j hj
  exact get_block_set_ne blocks j k bnew (hk j hj)

/-- One packing-loop iteration preserves positivity and the alone
property (alongside the main invariant). -/
theorem process_block_alone (tw : Int) (st st2 : LayoutState) (b : Block)
    (htw : 0 ≤ tw) (hok : BlockOK b) (hble : b.width ≤ tw) (hbpos : 1 ≤ b.width)
    (hwf : StateWF tw st) (hpos : RegistryPos st.blocks)
    (halc : AloneFW tw st.blocks st.current)
    (halg : ∀ g ∈ st.groups, AloneFW tw st.blocks g)
    (h : process_block tw st b = .ok st2) :
    RegistryPos st2.blocks ∧ AloneFW tw st2.blocks st2.current ∧
    (∀ g ∈ st2.groups, AloneFW tw st2.blocks g) := by
  obtain ⟨hreg, hgroups, hcur, hfullc, hpart⟩ := hwf
  obtain ⟨hcur_lt, hgr_facts⟩ := partition_facts st hpart
  have hreg2 : RegistryOK tw (st.blocks ++ [b]) := by
    intro x hx
    rcases List.mem_append.mp hx with hxo | hxb
    · exact hreg x hxo
    · rw [List.mem_singleton.mp hxb]
      exact ⟨hok, hble⟩
  have hpos2 : RegistryPos (st.blocks ++ [b]) := by
    intro x hx
    rcases List.mem_append.mp hx with hxo | hxb
    · exact hpos x hxo
    · rw [List.mem_singleton.mp hxb]
      exact hbpos
  have hcur2 : GroupWF (st.blocks ++ [b]) tw st.current :=
    GroupWF_append st.blocks b tw st.current hcur
  have halc2 : AloneFW tw (st.blocks ++ [b]) st.current :=
    AloneFW_append tw st.blocks b st.current hcur halc
  have halg2 : ∀ g ∈ st.groups, AloneFW tw (st.blocks ++ [b]) g :=
    fun g hg => AloneFW_append tw st.blocks b g (hgroups g hg).1 (halg g hg)
  have hbi_lt : st.blocks.length < (st.blocks ++ [b]).length := by simp
  simp only [process_block] at h
  split at h
  next g hadd =>
    obtain hst := Except.ok.inj h
    subst hst
    exact ⟨hpos2,
      add_alone tw (st.blocks ++ [b]) st.current g st.blocks.length htw hpos2 hreg2
        hcur2 hfullc halc2 hbi_lt hadd, halg2⟩
  next hfail =>
    split at h
    next blocks3 cur3 heq =>
      obtain hst := Except.ok.inj h
      subst hst
      obtain ⟨-, hsingle, hkey, hnc, -, hbl⟩ := try_compact_success_spec tw _ _ _ _ heq
      obtain ⟨rebuilt, hfold, hadd2⟩ := try_compact_success_rebuild tw _ _ _ _ heq
      have hk_mem : st.current.last_block_index ∈ st.current.blocks_in_order := by
        have := last_block_index_mem_bio st.current (by simpa using hsingle)
        simpa using this
      have hk_lt : st.current.last_block_index < st.blocks.length :=
        hcur_lt _ hk_mem
      have hk_lt2 : st.current.last_block_index < (st.blocks ++ [b]).length := by
        simp only [List.length_append, List.length_singleton]
        omega
      have hbold := RegistryOK_get tw (st.blocks ++ [b]) hreg2 _ hk_lt2
      have hmut := mutated_keyid_OK tw _ hbold.1 hbold.2 (by simpa using hkey)
        (by simpa using hnc)
      have hmutpos : 1 ≤ ({ get_block (st.blocks ++ [b]) st.current.last_block_index with
          keyid_compact := true,
          content_width := (get_block (st.blocks ++ [b]) st.current.last_block_index).content_width - 8,
          width := (get_block (st.blocks ++ [b]) st.current.last_block_index).width - 8,
          height := 3 } : Block).width := by
      -- the old block is a non-compact keyid: content width 18, margins ≥ 0
        obtain ⟨-, -, hshape⟩ := hbold.1.keyid_shape (Or.inl (by simpa using hkey))
        obtain ⟨hcw, -⟩ := hshape (by simpa using hnc)
        have hwe := hbold.1.width_eq
        have hml := hbold.1.ml_nonneg
        have hmr := hbold.1.mr_nonneg
        simp only
        omega
      have hreg3 : RegistryOK tw blocks3 := by
        intro x hx
        rw [hbl] at hx
        rcases List.mem_or_eq_of_mem_set hx with hxo | hxe
        · exact hreg2 x hxo
        · rw [hxe]
          exact ⟨hmut.1, hmut.2⟩
      have hpos3 : RegistryPos blocks3 := by
        intro x hx
        rw [hbl] at hx
        rcases List.mem_or_eq_of_mem_set hx with hxo | hxe
        · exact hpos2 x hxo
        · rw [hxe]
          exact hmutpos
      have hlen3 : blocks3.length = (st.blocks ++ [b]).length := by
        rw [hbl]
        simp
      have hfresh : GroupWF blocks3 tw
          ({ table_width := tw, height := 0, columns := [], keyid := -1 } : RowGroup) :=
        { tweq := rfl
          cols := by intro c hc; cases hc
          sumw := by rw [width_columns]; simpa using htw }
      have hbnd : ∀ j ∈ st.current.blocks_in_order, j < blocks3.length := by
        intro j hj
        rw [hlen3]
        have := hcur_lt j hj
        simp only [List.length_append, List.length_singleton]
        omega
      have hfrfull : FullCol ({ table_width := tw, height := 0, columns := [], keyid := -1 } : RowGroup) := fun hc => absurd rfl hc
      have hfralone : AloneFW tw blocks3
          ({ table_width := tw, height := 0, columns := [], keyid := -1 } : RowGroup) := by
        intro c hc
        cases hc
      obtain ⟨hwfR, hfullR⟩ := foldlM_add_WF tw blocks3 htw hreg3 _ _ rebuilt
        (by simpa using hbnd) hfresh hfrfull (by simpa using hfold)
      have halR : AloneFW tw blocks3 rebuilt :=
        foldlM_add_alone tw blocks3 htw hpos3 hreg3 _ _ rebuilt
          (by simpa using hbnd) hfresh hfrfull hfralone (by simpa using hfold)
      have halC : AloneFW tw blocks3 cur3 :=
        add_alone tw blocks3 rebuilt cur3 st.blocks.length htw hpos3 hreg3 hwfR hfullR
          halR (by rw [hlen3]; simp) hadd2
      refine ⟨hpos3, halC, ?_⟩
      intro g2 hg2
      rw [hbl]
      refine AloneFW_set_ne tw _ _ _ g2 ?_ (halg2 g2 hg2)
      intro j hj
      intro hc
      exact (hgr_facts g2 hg2 j hj).2 (hc ▸ hk_mem)
    next blocks3 cur3 heq =>
      obtain ⟨hbl3, hcur3⟩ := try_compact_failure_spec tw _ _ _ _ heq
      split at h
      next g hadd2 =>
        obtain hst := Except.ok.inj h
        subst hst
        subst hbl3
        subst hcur3
        have hfreshWF : GroupWF (st.blocks ++ [b]) tw
            ({ table_width := tw, height := 0, columns := [], keyid := -1 } : RowGroup) :=
          { tweq := rfl
            cols := by intro c hc; cases hc
            sumw := by rw [width_columns]; simpa using htw }
        have halfresh : AloneFW tw (st.blocks ++ [b])
            ({ table_width := tw, height := 0, columns := [], keyid := -1 } : RowGroup) := by
          intro c hc
          cases hc
        have halg3 := add_alone tw (st.blocks ++ [b]) _ g st.blocks.length htw hpos2
          hreg2 hfreshWF (fun hc => absurd rfl hc) halfresh hbi_lt hadd2
        refine ⟨hpos2, halg3, ?_⟩
        intro g2 hg2
        by_cases hce : st.current.columns.isEmpty
        · rw [if_pos hce] at hg2
          simp only [List.append_nil] at hg2
          exact halg2 g2 hg2
        · rw [if_neg hce] at hg2
          rcases List.mem_append.mp hg2 with hgo | hgc
          · exact halg2 g2 hgo
          · rw [List.mem_singleton.mp hgc]
            exact halc2
      next => cases h

theorem layout_entries_alone (tw : Int) (lbl : String) (htw : 0 ≤ tw) :
    ∀ (entries : List Entry) (st st2 : LayoutState),
    (∀ e ∈ entries, ValidEntry e ∧ e.data ≠ "") →
    StateWF tw st → RegistryPos st.blocks →
    AloneFW tw st.blocks st.current →
    (∀ g ∈ st.groups, AloneFW tw st.blocks g) →
    entries.foldlM
      (fun st e => do
        let b ← mk_block tw lbl e
        process_block tw st b) st = .ok st2 →
    RegistryPos st2.blocks ∧ AloneFW tw st2.blocks st2.current ∧
    (∀ g ∈ st2.groups, AloneFW tw st2.blocks g) := by
  intro entries
  induction entries with
  | nil =>
    intro st st2 hv hwf hpos halc halg h
    obtain rfl := Except.ok.inj h
    exact ⟨hpos, halc, halg⟩
  | cons e rest ih =>
    intro st st2 hv hwf hpos halc halg h
    rw [List.foldlM_cons] at h
    obtain ⟨st1, h1, h2⟩ := bind_eq_ok _ _ _ h
    obtain ⟨b, hb, hp⟩ := bind_eq_ok _ _ _ h1
    obtain ⟨hval, hdata⟩ := hv e (List.mem_cons_self e rest)
    obtain ⟨hok, hble⟩ := mk_block_valid tw lbl e b hval hb
    have hbpos := mk_block_pos tw lbl e b hval hdata hb
    have hwf1 : StateWF tw st1 := process_block_WF tw st st1 b htw hok hble hwf hp
    obtain ⟨hpos1, halc1, halg1⟩ := process_block_alone tw st st1 b htw hok hble hbpos
      hwf hpos halc halg hp
    exact ih st1 st2 (fun e2 he2 => hv e2 (List.mem_cons_of_mem e he2)) hwf1 hpos1
      halc1 halg1 h2

/-! ## C10: a block of exactly the table width has a RowGroup to itself -/

/-- C10 as amended: for every valid input in which every block has
positive total width (in particular, no plain block with an empty data
string), every block of the finalized layout whose total width equals
the table width is the only block of its RowGroup: its column is the
group's only column and holds only that block.  (A zero-width block
can share such a group, which is the counterexample to the claim as
stated.) -/
theorem full_width_block_alone (table_width : Int) (entries : List Entry)
    (blocks : List Block) (groups : List RowGroup)
    (htw : 0 ≤ table_width)
    (hval : ∀ e ∈ entries, ValidEntry e ∧ e.data ≠ "")
    (h : layout_sheet table_width entries = .ok (blocks, groups)) :
    ∀ g ∈ groups, ∀ c ∈ g.columns, ∀ j ∈ c.blocks,
      (get_block blocks j).width = table_width →
      g.columns = [c] ∧ c.blocks = [j] := by
  simp only [layout_sheet] at h
  obtain ⟨st, hst, hout⟩ := bind_eq_ok _ _ _ h
  obtain hpair := Except.ok.inj hout
  simp only [Prod.mk.injEq] at hpair
  obtain ⟨hbl, hgr⟩ := hpair
  obtain ⟨-, halc, halg⟩ := layout_entries_alone table_width "sheet" htw entries
    (init_state table_width) st hval (StateWF_init table_width htw)
    (fun x hx => by cases hx) (fun c hc => by cases hc) (fun g hg => by cases hg) hst
  subst hbl
  intro g hg
  rw [← hgr] at hg
  rcases List.mem_append.mp hg with hgo | hgc
  · exact halg g hgo
  · split at hgc
    · cases hgc
    · rw [List.mem_singleton.mp hgc]
      exact halc

/-- Witness for the amended C10: a single block of exactly the table
width occupies the single group alone. -/
theorem full_width_block_alone_witness :
    c10_good_group.columns = [c10_good_col] ∧ c10_good_col.blocks = [0] := by
  have H := full_width_block_alone 5 c10_good_entries c10_good_result.1 c10_good_result.2
    (by norm_num)
    (by
      intro e he
      simp only [c10_good_entries, List.mem_cons, List.not_mem_nil, or_false] at he
      subst he
      exact ⟨⟨ValidMargin_none, ValidMargin_none⟩, by decide⟩)
    (by rfl)
  exact H c10_good_group (by decide) c10_good_col (by decide) 0 (by decide) (by decide)

/-- Counterexample for C10 as stated: at table width 5, the width-5
block (index 0) and a zero-width block (empty data string, index 1)
end up in the same RowGroup, so the full-width block does not occupy a
RowGroup by itself. -/
theorem full_width_shares_group_example :
    layout_sheet 5 c10_entries = .ok (c10_blocks, [c10_group]) ∧
    (get_block c10_blocks 0).width = 5 ∧
    c10_group.blocks_in_order = [0, 1] :=
  ⟨rfl, rfl, rfl⟩

/-! ## Renderer arithmetic: spans and rowspan carries -/

theorem spanSum_append (a b : List Cell) :
    spanSum (a ++ b) = spanSum a + spanSum b := by
  simp [spanSum]

theorem overhang_append (a b : List Cell) :
    overhang (a ++ b) = overhang a + overhang b := by
  simp [overhang, List.filter_append]

theorem overhang_cons (x : Cell) (l : List Cell) :
    overhang (x :: l) = (if x.rowspan == 2 then x.colspan else 0) + overhang l := by
  by_cases h : x.rowspan == 2
  · simp [overhang, List.filter_cons, h]
  · simp [overhang, List.filter_cons, h]

theorem spanSum_nil : spanSum [] = 0 := rfl

theorem overhang_nil : overhang [] = 0 := rfl

theorem spanSum_empty_span (n : Int) (h : 0 ≤ n) :
    spanSum (write_empty_span n) = n := by
  unfold write_empty_span
  split
  next hle => simp only [spanSum, List.map_nil, List.sum_nil]; omega
  next => simp [spanSum]

theorem overhang_empty_span (n : Int) : overhang (write_empty_span n) = 0 := by
  unfold write_empty_span
  split
  · rfl
  · rfl

theorem spanSum_map_ones {α : Type} (l : List α) (f : α → Cell)
    (h : ∀ a ∈ l, (f a).colspan = 1) : spanSum (l.map f) = l.length := by
  induction l with
  | nil => rfl
  | cons a t ih =>
    simp only [List.map_cons, spanSum, List.sum_cons, List.length_cons]
    have h1 := h a (List.mem_cons_self a t)
    have h2 : spanSum (t.map f) = t.length := ih fun x hx => h x (List.mem_cons_of_mem a hx)
    simp only [spanSum] at h2
    rw [h1, h2]
    push_cast
    ring

theorem overhang_map_row_one {α : Type} (l : List α) (f : α → Cell)
    (h : ∀ a ∈ l, (f a).rowspan = 1) : overhang (l.map f) = 0 := by
  induction l with
  | nil => rfl
  | cons a t ih =>
    rw [List.map_cons, overhang_cons]
    have h1 := h a (List.mem_cons_self a t)
    rw [h1]
    have h2 : overhang (t.map f) = 0 := ih fun x hx => h x (List.mem_cons_of_mem a hx)
    rw [h2]
    rfl

/-- The header row of a well-shaped block spans exactly its total
width and produces no rowspan carry. -/
theorem header_row_spec (b : Block) (hok : BlockOK b) :
    spanSum (write_block_header_row b) = b.width ∧
    overhang (write_block_header_row b) = 0 := by
  unfold write_block_header_row
  constructor
  · rw [spanSum_append, spanSum_append, spanSum_empty_span _ hok.ml_nonneg,
      spanSum_empty_span _ hok.mr_nonneg]
    have hmid : spanSum [({ colspan := b.content_width, rowspan := 1, text := html_escape b.header } : Cell)] = b.content_width := by
      simp [spanSum]
    rw [hmid]
    have := hok.width_eq
    omega
  · rw [overhang_append, overhang_append, overhang_empty_span, overhang_empty_span,
      overhang_cons, overhang_nil]
    simp

/-! ## Locating blocks inside a column stack -/

theorem find_mem (blocks : List Block) :
    ∀ (l : List Nat) (r : Int) (br : Int) (i : Nat),
    find_block_at_row blocks l r = some (br, i) → i ∈ l := by
  intro l
  induction l with
  | nil => intro r br i h; cases h
  | cons j t ih =>
    intro r br i h
    simp only [find_block_at_row] at h
    split at h
    · obtain ⟨-, rfl⟩ := Prod.mk.injEq .. ▸ Option.some.inj h
      exact List.mem_cons_self j t
    · exact List.mem_cons_of_mem j (ih _ br i h)

theorem find_bounds (blocks : List Block) :
    ∀ (l : List Nat) (r : Int) (br : Int) (i : Nat),
    find_block_at_row blocks l r = some (br, i) →
    br < (get_block blocks i).height := by
  intro l
  induction l with
  | nil => intro r br i h; cases h
  | cons j t ih =>
    intro r br i h
    simp only [find_block_at_row] at h
    split at h
    next hlt =>
      obtain ⟨h1, h2⟩ := Prod.mk.injEq .. ▸ Option.some.inj h
      subst h1
      subst h2
      exact hlt
    · exact ih _ br i h

theorem find_le (blocks : List Block) :
    ∀ (l : List Nat) (r : Int) (br : Int) (i : Nat),
    (∀ j ∈ l, 0 ≤ (get_block blocks j).height) →
    find_block_at_row blocks l r = some (br, i) → br ≤ r := by
  intro l
  induction l with
  | nil => intro r br i hp h; cases h
  | cons j t ih =>
    intro r br i hp h
    simp only [find_block_at_row] at h
    split at h
    · obtain ⟨h1, -⟩ := Prod.mk.injEq .. ▸ Option.some.inj h
      omega
    · have := ih _ br i (fun k hk => hp k (List.mem_cons_of_mem j hk)) h
      have := hp j (List.mem_cons_self j t)
      omega

theorem find_nonneg (blocks : List Block) :
    ∀ (l : List Nat) (r : Int) (br : Int) (i : Nat), 0 ≤ r →
    find_block_at_row blocks l r = some (br, i) →
    ((∀ j ∈ l, 1 ≤ (get_block blocks j).height) → 0 ≤ br) := by
  intro l
  induction l with
  | nil => intro r br i h0 h; cases h
  | cons j t ih =>
    intro r br i h0 h hp
    simp only [find_block_at_row] at h
    split at h
    next hlt =>
      obtain ⟨h1, -⟩ := Prod.mk.injEq .. ▸ Option.some.inj h
      omega
    next hge =>
      have hj := hp j (List.mem_cons_self j t)
      exact ih _ br i (by omega) h (fun k hk => hp k (List.mem_cons_of_mem j hk))

theorem find_succ (blocks : List Block) :
    ∀ (l : List Nat) (r : Int) (br : Int) (i : Nat),
    find_block_at_row blocks l r = some (br, i) →
    br + 1 < (get_block blocks i).height →
    find_block_at_row blocks l (r + 1) = some (br + 1, i) := by
  intro l
  induction l with
  | nil => intro r br i h; cases h
  | cons j t ih =>
    intro r br i h hlt
    simp only [find_block_at_row] at h ⊢
    split at h
    next hin =>
      obtain ⟨h1, h2⟩ := Prod.mk.injEq .. ▸ Option.some.inj h
      subst h1
      subst h2
      rw [if_pos (by omega)]
    next hout =>
      rw [if_neg (by omega)]
      have : r + 1 - (get_block blocks j).height = r - (get_block blocks j).height + 1 := by
        omega
      rw [this]
      exact ih _ br i h hlt

theorem find_pred (blocks : List Block) :
    ∀ (l : List Nat) (r : Int) (br : Int) (i : Nat),
    (∀ j ∈ l, 0 ≤ (get_block blocks j).height) →
    find_block_at_row blocks l r = some (br, i) → 1 ≤ br →
    find_block_at_row blocks l (r - 1) = some (br - 1, i) := by
  intro l
  induction l with
  | nil => intro r br i hp h; cases h
  | cons j t ih =>
    intro r br i hp h hge
    simp only [find_block_at_row] at h ⊢
    split at h
    next hin =>
      obtain ⟨h1, h2⟩ := Prod.mk.injEq .. ▸ Option.some.inj h
      subst h1
      subst h2
      rw [if_pos (by omega)]
    next hout =>
      have hle := find_le blocks t _ br i
        (fun k hk => hp k (List.mem_cons_of_mem j hk)) h
      rw [if_neg (by omega)]
      have heq : r - 1 - (get_block blocks j).height = r - (get_block blocks j).height - 1 := by
        omega
      rw [heq]
      exact ih _ br i (fun k hk => hp k (List.mem_cons_of_mem j hk)) h hge

theorem find_none_succ (blocks : List Block) :
    ∀ (l : List Nat) (r : Int),
    find_block_at_row blocks l r = none →
    find_block_at_row blocks l (r + 1) = none := by
  intro l
  induction l with
  | nil => intro r h; rfl
  | cons j t ih =>
    intro r h
    simp only [find_block_at_row] at h ⊢
    split at h
    · cases h
    next hout =>
      rw [if_neg (by omega)]
      have : r + 1 - (get_block blocks j).height = r - (get_block blocks j).height + 1 := by
        omega
      rw [this]
      exact ih _ h

theorem spanSum_cons (x : Cell) (l : List Cell) :
    spanSum (x :: l) = x.colspan + spanSum l := by
  simp [spanSum]

/-- The data row of a well-shaped block at a legal offset spans its
total width, except the second data row of a compact key-identifier
block, which spans 2 fewer units; the first data row of a compact
key-identifier block is the only one carrying a rowspan-2 cell (of
span 2) into the next row. -/
theorem data_row_spec (b : Block) (hok : BlockOK b) (dri : Int)
    (h0 : 0 ≤ dri) (hh : dri ≤ b.height - 2) :
    ∃ cells, write_block_data_row b dri = .ok cells ∧
      spanSum cells = b.width -
        (if (b.key = "keyid" ∨ b.key = "keyid3") ∧ b.keyid_compact = true ∧ dri = 1
         then 2 else 0) ∧
      overhang cells =
        (if (b.key = "keyid" ∨ b.key = "keyid3") ∧ b.keyid_compact = true ∧ dri = 0
         then 2 else 0) := by
  have hwe := hok.width_eq
  have hml := hok.ml_nonneg
  have hmr := hok.mr_nonneg
  by_cases hk : b.key = "keyid" ∨ b.key = "keyid3"
  · obtain ⟨hlen, hcomp, hncomp⟩ := hok.keyid_shape hk
    by_cases hc : b.keyid_compact = true
    · obtain ⟨hcw, hht⟩ := hcomp hc
      have hdr : dri = 0 ∨ dri = 1 := by omega
      rcases hdr with rfl | rfl
      · refine ⟨write_empty_span b.margin_left ++
          (({ colspan := 2, rowspan := 2, text := html_escape "0 x" } : Cell) ::
            (List.range 8).map (fun i => ({ colspan := 1, rowspan := 1, text := hex_char b i } : Cell))) ++
          write_empty_span b.margin_right, ?_, ?_, ?_⟩
        · simp only [write_block_data_row]
          rw [if_pos hk, if_pos hc]
          norm_num [bind_ok_eq]
        · rw [spanSum_append, spanSum_append, spanSum_empty_span _ hml,
            spanSum_empty_span _ hmr, spanSum_cons,
            spanSum_map_ones _ _ (fun a ha => rfl)]
          rw [if_neg (by rintro ⟨-, -, hbad⟩; norm_num at hbad)]
          simp only [List.length_range]
          omega
        · rw [overhang_append, overhang_append, overhang_empty_span,
            overhang_empty_span, overhang_cons,
            overhang_map_row_one _ _ (fun a ha => rfl)]
          have hcond : (b.key = "keyid" ∨ b.key = "keyid3") ∧ b.keyid_compact = true ∧ (0 : Int) = 0 := ⟨hk, hc, rfl⟩
          rw [if_pos hcond]
          try norm_num
      · refine ⟨write_empty_span b.margin_left ++
          ((List.range 8).map (fun i => ({ colspan := 1, rowspan := 1, text := hex_char b (8 + i) } : Cell))) ++
          write_empty_span b.margin_right, ?_, ?_, ?_⟩
        · simp only [write_block_data_row]
          rw [if_pos hk, if_pos hc]
          norm_num [bind_ok_eq]
        · rw [spanSum_append, spanSum_append, spanSum_empty_span _ hml,
            spanSum_empty_span _ hmr, spanSum_map_ones _ _ (fun a ha => rfl)]
          have hcond : (b.key = "keyid" ∨ b.key = "keyid3") ∧ b.keyid_compact = true ∧ (1 : Int) = 1 := ⟨hk, hc, rfl⟩
          rw [if_pos hcond]
          simp only [List.length_range]
          omega
        · rw [overhang_append, overhang_append, overhang_empty_span,
            overhang_empty_span, overhang_map_row_one _ _ (fun a ha => rfl)]
          rw [if_neg (by rintro ⟨-, -, hbad⟩; norm_num at hbad)]
          try norm_num
    · have hc2 : b.keyid_compact = false := by
        simpa [Bool.not_eq_true] using hc
      obtain ⟨hcw, hht⟩ := hncomp hc2
      have hdr : dri = 0 := by omega
      subst hdr
      refine ⟨write_empty_span b.margin_left ++
        (({ colspan := 2, rowspan := 1, text := html_escape "0 x" } : Cell) ::
          (List.range 16).map (fun i => ({ colspan := 1, rowspan := 1, text := hex_char b i } : Cell))) ++
        write_empty_span b.margin_right, ?_, ?_, ?_⟩
      · simp only [write_block_data_row]
        rw [if_pos hk, if_neg hc]
        norm_num [bind_ok_eq]
      · rw [spanSum_append, spanSum_append, spanSum_empty_span _ hml,
          spanSum_empty_span _ hmr, spanSum_cons,
          spanSum_map_ones _ _ (fun a ha => rfl)]
        have hcond : ¬((b.key = "keyid" ∨ b.key = "keyid3") ∧ b.keyid_compact = true ∧ (0 : Int) = 1) := by
          rintro ⟨-, hbad, -⟩
          rw [hc2] at hbad
          cases hbad
        rw [if_neg hcond]
        simp only [List.length_range]
        omega
      · rw [overhang_append, overhang_append, overhang_empty_span,
          overhang_empty_span, overhang_cons,
          overhang_map_row_one _ _ (fun a ha => rfl)]
        have hcond : ¬((b.key = "keyid" ∨ b.key = "keyid3") ∧ b.keyid_compact = true ∧ (0 : Int) = 0) := by
          rintro ⟨-, hbad, -⟩
          rw [hc2] at hbad
          cases hbad
        rw [if_neg hcond]
        try norm_num
  · obtain ⟨hcw, hht⟩ := hok.plain_shape hk
    have hifd : ∀ (z : Int), (if (b.key = "keyid" ∨ b.key = "keyid3") ∧
        b.keyid_compact = true ∧ dri = z then (2 : Int) else 0) = 0 := by
      intro z
      rw [if_neg (by rintro ⟨hbad, -, -⟩; exact hk hbad)]
    by_cases hg10 : b.data = "grid10"
    · refine ⟨write_empty_span b.margin_left ++ "0123456789".toList.map char_cell ++
        write_empty_span b.margin_right, ?_, ?_, ?_⟩
      · simp only [write_block_data_row]
        rw [if_neg hk, if_pos hg10]
        norm_num [bind_ok_eq]
      · rw [spanSum_append, spanSum_append, spanSum_empty_span _ hml,
          spanSum_empty_span _ hmr, spanSum_map_ones _ _ (fun a ha => rfl), hifd]
        have hlen10 : ("0123456789".toList.length : Int) = 10 := by decide
        rw [hlen10]
        have hdw : data_width b.data = 10 := by rw [hg10]; decide
        omega
      · rw [overhang_append, overhang_append, overhang_empty_span,
          overhang_empty_span, overhang_map_row_one _ _ (fun a ha => rfl), hifd]
        try norm_num
    · by_cases hg36 : b.data = "grid36"
      · have hdw : data_width b.data = 37 := by rw [hg36]; decide
        by_cases h5 : dri % 5 < 4
        · refine ⟨write_empty_span b.margin_left ++ grid36_alphabet.toList.map char_cell ++
            write_empty_span b.margin_right, ?_, ?_, ?_⟩
          · simp only [write_block_data_row]
            rw [if_neg hk, if_neg hg10, if_pos hg36, if_pos h5]
            norm_num [bind_ok_eq]
          · rw [spanSum_append, spanSum_append, spanSum_empty_span _ hml,
              spanSum_empty_span _ hmr, spanSum_map_ones _ _ (fun a ha => rfl), hifd]
            have hlen36 : (grid36_alphabet.toList.length : Int) = 37 := by decide
            rw [hlen36]
            omega
          · rw [overhang_append, overhang_append, overhang_empty_span,
              overhang_empty_span, overhang_map_row_one _ _ (fun a ha => rfl), hifd]
            try norm_num
        · refine ⟨write_empty_span b.margin_left ++
            [({ colspan := 1, rowspan := 1, text := "-" } : Cell),
             ({ colspan := 36, rowspan := 1, text := "" } : Cell)] ++
            write_empty_span b.margin_right, ?_, ?_, ?_⟩
          · simp only [write_block_data_row]
            rw [if_neg hk, if_neg hg10, if_pos hg36, if_neg h5]
            norm_num [bind_ok_eq]
          · rw [spanSum_append, spanSum_append, spanSum_empty_span _ hml,
              spanSum_empty_span _ hmr, hifd]
            have hmid : spanSum [({ colspan := 1, rowspan := 1, text := "-" } : Cell), ({ colspan := 36, rowspan := 1, text := "" } : Cell)] = 37 := by
              simp [spanSum]
            rw [hmid]
            omega
          · rw [overhang_append, overhang_append, overhang_empty_span,
              overhang_empty_span, hifd]
            try rfl
            try norm_num [overhang]
      · have hdh : data_height b.data = 2 := by
          unfold data_height
          rw [if_neg hg36, if_neg hg10]
        have hdr : dri = 0 := by omega
        subst hdr
        refine ⟨write_empty_span b.margin_left ++ b.data.toList.map char_cell ++
          write_empty_span b.margin_right, ?_, ?_, ?_⟩
        · simp only [write_block_data_row]
          rw [if_neg hk, if_neg hg10, if_neg hg36]
          norm_num [bind_ok_eq]
        · rw [spanSum_append, spanSum_append, spanSum_empty_span _ hml,
            spanSum_empty_span _ hmr, spanSum_map_ones _ _ (fun a ha => rfl), hifd]
          have hdw : data_width b.data = (b.data.length : Int) := by
            unfold data_width
            rw [if_neg hg36, if_neg hg10]
          have htl : b.data.toList.length = b.data.length := String.length_data b.data
          rw [htl]
          omega
        · rw [overhang_append, overhang_append, overhang_empty_span,
            overhang_empty_span, overhang_map_row_one _ _ (fun a ha => rfl), hifd]
          try norm_num

theorem find_some (blocks : List Block) :
    ∀ (l : List Nat) (r : Int), 0 ≤ r →
    r < (l.map (fun i => (get_block blocks i).height)).sum →
    ∃ br i, find_block_at_row blocks l r = some (br, i) := by
  intro l
  induction l with
  | nil =>
    intro r h0 hr
    simp only [List.map_nil, List.sum_nil] at hr
    omega
  | cons j t ih =>
    intro r h0 hr
    simp only [List.map_cons, List.sum_cons] at hr
    by_cases hlt : r < (get_block blocks j).height
    · exact ⟨r, j, by simp only [find_block_at_row]; rw [if_pos hlt]⟩
    · obtain ⟨br, i, hfind⟩ := ih (r - (get_block blocks j).height) (by omega) (by omega)
      exact ⟨br, i, by simp only [find_block_at_row]; rw [if_neg hlt]; exact hfind⟩

/-- One column's piece of a table row: the emitted cells exist and span
the column width minus the carried-over deficit, and push exactly
`col_over` units into the next row. -/
theorem render_col_spec (tw : Int) (blocks : List Block) (H : Int) (c : Column)
    (hro : RegistryOK tw blocks) (hwf : ColWF blocks H c) (r : Int)
    (h0 : 0 ≤ r) :
    ∃ cells, render_col_at blocks c r = .ok cells ∧
      spanSum cells = c.width - col_defect blocks c r ∧
      overhang cells = col_over blocks c r := by
  have hpos1 : ∀ j ∈ c.blocks, 1 ≤ (get_block blocks j).height := by
    intro j hj
    exact (RegistryOK_get tw blocks hro j (hwf.inbounds j hj)).1.h_pos
  have hcw0 : 0 ≤ c.width := by
    obtain ⟨j, hjmem, hjw⟩ := hwf.width_mem
    rw [hjw]
    exact BlockOK_width_nonneg _ (RegistryOK_get tw blocks hro j (hwf.inbounds j hjmem)).1
  cases hfind : find_block_at_row blocks c.blocks r with
  | none =>
    refine ⟨write_empty_span c.width, ?_, ?_, ?_⟩
    · simp only [render_col_at, hfind]
    · rw [spanSum_empty_span _ hcw0]
      simp only [col_defect, hfind]
      omega
    · rw [overhang_empty_span]
      simp only [col_over, hfind]
  | some p =>
    obtain ⟨br, i⟩ := p
    have hi : i ∈ c.blocks := find_mem blocks c.blocks r br i hfind
    have hbok : BlockOK (get_block blocks i) :=
      (RegistryOK_get tw blocks hro i (hwf.inbounds i hi)).1
    have hbr_lt : br < (get_block blocks i).height := find_bounds blocks c.blocks r br i hfind
    have hbr0 : 0 ≤ br := find_nonneg blocks c.blocks r br i h0 hfind hpos1
    have hgap : (get_block blocks i).width ≤ c.width := hwf.width_ub i hi
    have hgap0 : 0 ≤ c.width - (get_block blocks i).width := by omega
    by_cases hbr : br = 0
    · subst hbr
      refine ⟨write_block_header_row (get_block blocks i) ++
        write_empty_span (c.width - (get_block blocks i).width), ?_, ?_, ?_⟩
      · simp only [render_col_at, hfind]
        rw [if_pos trivial]
        rfl
      · obtain ⟨hs, _⟩ := header_row_spec (get_block blocks i) hbok
        rw [spanSum_append, hs, spanSum_empty_span _ hgap0]
        simp only [col_defect, hfind]
        rw [if_neg (by rintro ⟨-, -, hbad⟩; norm_num at hbad)]
        omega
      · obtain ⟨_, ho⟩ := header_row_spec (get_block blocks i) hbok
        rw [overhang_append, ho, overhang_empty_span]
        simp only [col_over, hfind]
        rw [if_neg (by rintro ⟨-, -, hbad⟩; norm_num at hbad)]
        try norm_num
    · obtain ⟨cells0, hcells, hs, ho⟩ :=
        data_row_spec (get_block blocks i) hbok (br - 1) (by omega) (by omega)
      refine ⟨cells0 ++ write_empty_span (c.width - (get_block blocks i).width), ?_, ?_, ?_⟩
      · simp only [render_col_at, hfind]
        rw [if_neg hbr, hcells]
        rfl
      · rw [spanSum_append, hs, spanSum_empty_span _ hgap0]
        simp only [col_defect, hfind]
        have hiff : ((get_block blocks i).key = "keyid" ∨ (get_block blocks i).key = "keyid3") ∧ (get_block blocks i).keyid_compact = true ∧ br - 1 = 1 ↔ ((get_block blocks i).key = "keyid" ∨ (get_block blocks i).key = "keyid3") ∧ (get_block blocks i).keyid_compact = true ∧ br = 2 := by
          constructor
          · rintro ⟨ha, hb, hc⟩
            exact ⟨ha, hb, by omega⟩
          · rintro ⟨ha, hb, hc⟩
            exact ⟨ha, hb, by omega⟩
        rw [if_congr hiff rfl rfl]
        omega
      · rw [overhang_append, ho, overhang_empty_span]
        simp only [col_over, hfind]
        have hiff : ((get_block blocks i).key = "keyid" ∨ (get_block blocks i).key = "keyid3") ∧ (get_block blocks i).keyid_compact = true ∧ br - 1 = 0 ↔ ((get_block blocks i).key = "keyid" ∨ (get_block blocks i).key = "keyid3") ∧ (get_block blocks i).keyid_compact = true ∧ br = 1 := by
          constructor
          · rintro ⟨ha, hb, hc⟩
            exact ⟨ha, hb, by omega⟩
          · rintro ⟨ha, hb, hc⟩
            exact ⟨ha, hb, by omega⟩
        rw [if_congr hiff rfl rfl]
        norm_num

theorem find_zero_head (blocks : List Block) (l : List Nat)
    (hpos : ∀ j ∈ l, 1 ≤ (get_block blocks j).height) :
    find_block_at_row blocks l 0 = none ∨
    ∃ i2, find_block_at_row blocks l 0 = some (0, i2) := by
  cases l with
  | nil => exact Or.inl rfl
  | cons j t =>
    right
    refine ⟨j, ?_⟩
    have h1 := hpos j (List.mem_cons_self j t)
    simp only [find_block_at_row]
    rw [if_pos (show (0 : Int) < (get_block blocks j).height by omega)]

theorem find_boundary (blocks : List Block) :
    ∀ (l : List Nat) (r br : Int) (i : Nat),
    (∀ j ∈ l, 1 ≤ (get_block blocks j).height) →
    find_block_at_row blocks l r = some (br, i) →
    br + 1 = (get_block blocks i).height →
    find_block_at_row blocks l (r + 1) = none ∨
    ∃ i2, find_block_at_row blocks l (r + 1) = some (0, i2) := by
  intro l
  induction l with
  | nil =>
    intro r br i hp h hbd
    cases h
  | cons j t ih =>
    intro r br i hp h hbd
    simp only [find_block_at_row] at h ⊢
    split at h
    next hlt =>
      simp only [Option.some.injEq, Prod.mk.injEq] at h
      obtain ⟨h1, h2⟩ := h
      subst h1
      subst h2
      rw [if_neg (show ¬(r + 1 < (get_block blocks j).height) by omega)]
      have hz : r + 1 - (get_block blocks j).height = 0 := by omega
      rw [hz]
      exact find_zero_head blocks t (fun x hx => hp x (List.mem_cons_of_mem j hx))
    next hlt =>
      rw [if_neg (show ¬(r + 1 < (get_block blocks j).height) by omega)]
      have heq : r + 1 - (get_block blocks j).height =
          (r - (get_block blocks j).height) + 1 := by omega
      rw [heq]
      exact ih (r - (get_block blocks j).height) br i
        (fun x hx => hp x (List.mem_cons_of_mem j hx)) h hbd

/-- What one column's row pushes into the next table row is exactly
what its next row does not emit. -/
theorem col_over_defect (tw : Int) (blocks : List Block) (H : Int) (c : Column)
    (hro : RegistryOK tw blocks) (hwf : ColWF blocks H c) (r : Int) (h0 : 0 ≤ r) :
    col_over blocks c r = col_defect blocks c (r + 1) := by
  have hpos1 : ∀ j ∈ c.blocks, 1 ≤ (get_block blocks j).height := by
    intro j hj
    exact (RegistryOK_get tw blocks hro j (hwf.inbounds j hj)).1.h_pos
  cases hfind : find_block_at_row blocks c.blocks r with
  | none =>
    have hnext := find_none_succ blocks c.blocks r hfind
    simp only [col_over, col_defect, hfind, hnext]
  | some p =>
    obtain ⟨br, i⟩ := p
    have hi : i ∈ c.blocks := find_mem blocks c.blocks r br i hfind
    have hbok : BlockOK (get_block blocks i) :=
      (RegistryOK_get tw blocks hro i (hwf.inbounds i hi)).1
    have hbr_lt : br < (get_block blocks i).height := find_bounds blocks c.blocks r br i hfind
    have hbr0 : 0 ≤ br := find_nonneg blocks c.blocks r br i h0 hfind hpos1
    by_cases hcond : ((get_block blocks i).key = "keyid" ∨ (get_block blocks i).key = "keyid3") ∧ (get_block blocks i).keyid_compact = true ∧ br = 1
    · obtain ⟨hkk, hcc, hbr1⟩ := hcond
      have hh3 : (get_block blocks i).height = 3 := ((hbok.keyid_shape hkk).2.1 hcc).2
      have hsucc : find_block_at_row blocks c.blocks (r + 1) = some (br + 1, i) :=
        find_succ blocks c.blocks r br i hfind (by omega)
      simp only [col_over, col_defect, hfind, hsucc]
      have hc1 : ((get_block blocks i).key = "keyid" ∨ (get_block blocks i).key = "keyid3") ∧ (get_block blocks i).keyid_compact = true ∧ br = 1 := ⟨hkk, hcc, hbr1⟩
      have hc2 : ((get_block blocks i).key = "keyid" ∨ (get_block blocks i).key = "keyid3") ∧ (get_block blocks i).keyid_compact = true ∧ br + 1 = 2 := ⟨hkk, hcc, by omega⟩
      rw [if_pos hc1, if_pos hc2]
    · by_cases hend : br + 1 < (get_block blocks i).height
      · have hsucc := find_succ blocks c.blocks r br i hfind hend
        simp only [col_over, col_defect, hfind, hsucc]
        have hnc2 : ¬(((get_block blocks i).key = "keyid" ∨ (get_block blocks i).key = "keyid3") ∧ (get_block blocks i).keyid_compact = true ∧ br + 1 = 2) := by
          rintro ⟨ha, hb, hc⟩
          exact hcond ⟨ha, hb, by omega⟩
        rw [if_neg hcond, if_neg hnc2]
      · have hbd : br + 1 = (get_block blocks i).height := by omega
        rcases find_boundary blocks c.blocks r br i hpos1 hfind hbd with hn | ⟨i2, hs⟩
        · simp only [col_over, col_defect, hfind, hn]
          rw [if_neg hcond]
        · simp only [col_over, col_defect, hfind, hs]
          have hnc2 : ¬(((get_block blocks i2).key = "keyid" ∨ (get_block blocks i2).key = "keyid3") ∧ (get_block blocks i2).keyid_compact = true ∧ (0 : Int) = 2) := by
            rintro ⟨-, -, hbad⟩
            norm_num at hbad
          rw [if_neg hcond, if_neg hnc2]

/-- The table's first row of any column has no carried-over deficit. -/
theorem col_defect_zero (tw : Int) (blocks : List Block) (H : Int) (c : Column)
    (hro : RegistryOK tw blocks) (hwf : ColWF blocks H c) :
    col_defect blocks c 0 = 0 := by
  have hpos1 : ∀ j ∈ c.blocks, 1 ≤ (get_block blocks j).height := by
    intro j hj
    exact (RegistryOK_get tw blocks hro j (hwf.inbounds j hj)).1.h_pos
  cases hfind : find_block_at_row blocks c.blocks 0 with
  | none => simp only [col_defect, hfind]
  | some p =>
    obtain ⟨br, i⟩ := p
    have hbr0 : 0 ≤ br := find_nonneg blocks c.blocks 0 br i (le_refl 0) hfind hpos1
    have hble : br ≤ 0 := by
      refine find_le blocks c.blocks 0 br i ?_ hfind
      intro j hj
      have := hpos1 j hj
      omega
    have hz : br = 0 := by omega
    subst hz
    simp only [col_defect, hfind]
    rw [if_neg (by rintro ⟨-, -, hbad⟩; norm_num at hbad)]

theorem mapM_cols_spec (tw : Int) (blocks : List Block) (hro : RegistryOK tw blocks) :
    ∀ (cols : List Column) (H : Int), (∀ c ∈ cols, ColWF blocks H c) →
    ∀ (r : Int), 0 ≤ r →
    ∃ cellss, cols.mapM (fun col => render_col_at blocks col r) = .ok cellss ∧
      spanSum cellss.flatten =
        (cols.map Column.width).sum - (cols.map (fun c => col_defect blocks c r)).sum ∧
      overhang cellss.flatten = (cols.map (fun c => col_over blocks c r)).sum := by
  intro cols
  induction cols with
  | nil =>
    intro H hwf r h0
    refine ⟨[], rfl, ?_, ?_⟩
    · simp [spanSum]
    · simp [overhang]
  | cons c t ih =>
    intro H hwf r h0
    obtain ⟨cells, hc1, hc2, hc3⟩ :=
      render_col_spec tw blocks H c hro (hwf c (List.mem_cons_self c t)) r h0
    obtain ⟨cellss, ht1, ht2, ht3⟩ := ih H (fun x hx => hwf x (List.mem_cons_of_mem c hx)) r h0
    refine ⟨cells :: cellss, ?_, ?_, ?_⟩
    · simp only [List.mapM_cons, hc1, ht1, bind_ok_eq]
      rfl
    · simp only [List.flatten_cons, spanSum_append, List.map_cons, List.sum_cons, hc2, ht2]
      ring
    · simp only [List.flatten_cons, overhang_append, List.map_cons, List.sum_cons, hc3, ht3]

/-- One full table row of a group: it exists, spans the table width
minus the carried-over deficit, and pushes `row_over` into the next
row. -/
theorem render_row_spec (tw : Int) (blocks : List Block) (g : RowGroup)
    (hro : RegistryOK tw blocks) (hwf : GroupWF blocks tw g) (r : Int) (h0 : 0 ≤ r) :
    ∃ cells, render_row blocks tw g r = .ok cells ∧
      spanSum cells = tw - row_defect blocks g r ∧
      overhang cells = row_over blocks g r := by
  obtain ⟨cellss, h1, h2, h3⟩ := mapM_cols_spec tw blocks hro g.columns g.height hwf.cols r h0
  have hsum : (g.columns.map Column.width).sum ≤ tw := by
    have := hwf.sumw
    rw [width_columns] at this
    exact this
  refine ⟨cellss.flatten ++ write_empty_span (tw - (g.columns.map Column.width).sum), ?_, ?_, ?_⟩
  · simp only [render_row, h1, bind_ok_eq]
  · rw [spanSum_append, h2, spanSum_empty_span _ (by omega)]
    simp only [row_defect]
    ring
  · rw [overhang_append, h3, overhang_empty_span]
    simp only [row_over]
    ring

/-- The first table row of a group has no deficit: it spans the full
table width. -/
theorem row_defect_zero (tw : Int) (blocks : List Block) (g : RowGroup)
    (hro : RegistryOK tw blocks) (hwf : GroupWF blocks tw g) :
    row_defect blocks g 0 = 0 := by
  unfold row_defect
  apply List.sum_eq_zero
  intro x hx
  obtain ⟨c, hc, rfl⟩ := List.mem_map.mp hx
  exact col_defect_zero tw blocks g.height c hro (hwf.cols c hc)

/-- Row-to-row accounting: what row `r` pushes down is exactly what
row `r + 1` does not emit. -/
theorem row_over_defect (tw : Int) (blocks : List Block) (g : RowGroup)
    (hro : RegistryOK tw blocks) (hwf : GroupWF blocks tw g) (r : Int) (h0 : 0 ≤ r) :
    row_over blocks g r = row_defect blocks g (r + 1) := by
  simp only [row_over, row_defect]
  have hmap : g.columns.map (fun c => col_over blocks c r) =
      g.columns.map (fun c => col_defect blocks c (r + 1)) := by
    apply List.map_congr_left
    intro c hc
    exact col_over_defect tw blocks g.height c hro (hwf.cols c hc) r h0
  rw [hmap]

/-- C5 (amended): for every well-shaped registry and well-formed
RowGroup, every table row the renderer emits exists and its cell spans
sum to the table width minus exactly the span units still covered by
rowspan-2 cells of the previous row (`row_defect`); the first row has
zero deficit, and the units a row pushes down (`row_over`) are exactly
the next row's deficit.  So every table row is exactly the table width
wide only when the carried-over rowspan-2 cells are counted; the
unqualified per-row claim fails on the second data row of a compact
key-identifier block. -/
theorem rendered_row_spans (tw : Int) (blocks : List Block) (g : RowGroup) (r : Int)
    (hro : RegistryOK tw blocks) (hwf : GroupWF blocks tw g) (h0 : 0 ≤ r) :
    ∃ cells, render_row blocks tw g r = .ok cells ∧
      spanSum cells = tw - row_defect blocks g r ∧
      overhang cells = row_over blocks g r ∧
      row_defect blocks g 0 = 0 ∧
      row_over blocks g r = row_defect blocks g (r + 1) := by
  obtain ⟨cells, h1, h2, h3⟩ := render_row_spec tw blocks g hro hwf r h0
  exact ⟨cells, h1, h2, h3, row_defect_zero tw blocks g hro hwf,
    row_over_defect tw blocks g hro hwf r h0⟩

/-- C5, counterexample to the claim as stated: the `keyid3` sheet at
table width 12 lays out as one compact key-identifier block; its third
table row (second data row) renders with cell spans summing to 10, not
the table width 12 — the missing 2 units are covered by the rowspan-2
label cell emitted in the previous row. -/
theorem rendered_row_span_deficit_example :
    c5_result = (c5_blocks, [c5_group]) ∧
    render_row c5_blocks 12 c5_group 2 = .ok c5_cells_r2 ∧
    spanSum c5_cells_r2 = 10 ∧
    ¬(spanSum c5_cells_r2 = c5_group.table_width) := by
  refine ⟨rfl, rfl, by decide, by decide⟩

theorem rendered_row_spans_witness :
    ∃ cells, render_row c5_blocks 12 c5_group 2 = .ok cells ∧
      spanSum cells = 12 - row_defect c5_blocks c5_group 2 ∧
      overhang cells = row_over c5_blocks c5_group 2 ∧
      row_defect c5_blocks c5_group 0 = 0 ∧
      row_over c5_blocks c5_group 2 = row_defect c5_blocks c5_group (2 + 1) := by
  refine rendered_row_spans 12 c5_blocks c5_group 2 ?_ ?_ (by decide)
  · intro b hb
    simp only [c5_blocks, List.mem_singleton] at hb
    subst hb
    refine ⟨⟨?_, ?_, ?_, ?_, ?_, ?_, ?_⟩, ?_⟩ <;> decide
  · refine ⟨rfl, ?_, by decide⟩
    intro c hc
    simp only [c5_group, List.mem_singleton] at hc
    subst hc
    refine ⟨?_, ?_, ?_, ?_, ?_, ?_⟩ <;> decide

end PassphraseSheets
